import Mathlib

/-!
Verification of the graph engine in
`src/bfs-prim-binary-complete-binary/include/graph.hpp`.

The C++ class `Graph` owns a vector of `Node`s and a vector of `Edge`s.  We
embed `Node*` values as indices into the node store, so a `Graph` is a list of
nodes (each carrying its id, adjacency list and mutable search state) together
with the edge store and the two counters `tot_nodes` / `tot_edges`.  C++ `int`
is embedded as `Int`; no arithmetic in the translated code can overflow in the
regimes the theorems quantify over (`bfs` adds 1 to distances that stay below
the node count, `prim` only copies and compares edge weights), so the
unbounded embedding agrees with the 32-bit semantics there.
-/

set_option linter.unusedVariables false

namespace GraphSuite

/-- Visit colors used by `Graph::bfs` (white = unvisited, gray = in frontier,
black = done). -/
inductive Color where
  | white
  | gray
  | black
deriving DecidableEq, Repr

/-- A node as used by `graph.hpp`: integer id `data`, adjacency list
(references to other nodes, modelled as indices into the owning graph's node
store in place of the C++ `Node*` values), and the mutable search state
`color`, `distance`, `predecessor` written by `bfs` and `prim`.  The class
itself lives in the header `node.hpp`; its shape is determined by the accesses
in `graph.hpp` (`get_data`, `get_adj_list`, `add_adjacent` and the
color/distance/predecessor getters and setters). -/
structure Node where
  data : Int
  adj : List Nat
  color : Color
  distance : Int
  predecessor : Option Nat
deriving DecidableEq, Repr

instance : Inhabited Node := ⟨⟨0, [], Color.white, 0, none⟩⟩

/-- An edge as used by `graph.hpp`: two endpoint references (indices standing
for the `Node*` values returned by `get_source` / `get_destination`) and an
integer weight. -/
structure Edge where
  src : Nat
  dest : Nat
  weight : Int
deriving DecidableEq, Repr

/-- `INT_MAX`, the sentinel distance used by `bfs` and `prim`. -/
def INT_MAX : Int := 2147483647

/-- The `Graph` state: `std::vector<unique_node_ptr> nodes`,
`std::vector<unique_edge_ptr> edges`, and the counters `tot_nodes`,
`tot_edges`. -/
structure Graph where
  nodes : List Node
  edges : List Edge
  tot_nodes : Int
  tot_edges : Int
deriving DecidableEq, Repr

/-- Dereference a node index (`Node*`): the node stored at index `i`. -/
def nth (g : Graph) (i : Nat) : Node := g.nodes.getD i default

/-- In-place update of the node a given index points at (the effect of calling
a setter through a `Node*`). -/
def updN : List Node → Nat → (Node → Node) → List Node
  | [], _, _ => []
  | x :: xs, 0, f => f x :: xs
  | x :: xs, Nat.succ j, f => x :: updN xs j f

/-- Update one node of the graph through its index. -/
def updNode (g : Graph) (i : Nat) (f : Node → Node) : Graph :=
  { g with nodes := updN g.nodes i f }

/-- `Graph::insert_node` (graph.hpp:70-73): appends the node and raises
`tot_nodes` to the new size when it exceeds it.  The C++ comparison
`nodes.size() > tot_nodes` converts the `int` counter to `size_t`, so a
negative counter compares above every realizable size; the `0 ≤` conjunct
reproduces that. -/
def insert_node (g : Graph) (n : Node) : Graph :=
  let nodes := g.nodes ++ [n]
  { g with
    nodes := nodes
    tot_nodes := if 0 ≤ g.tot_nodes ∧ (nodes.length : Int) > g.tot_nodes
                 then (nodes.length : Int) else g.tot_nodes }

/-- `Graph::insert_edge` (graph.hpp:75-80): registers the destination in the
source's adjacency list and vice versa (`add_adjacent` appends), appends the
edge to the edge store and raises `tot_edges` to the new size when it exceeds
it. -/
def insert_edge (g : Graph) (e : Edge) : Graph :=
  let nodes := updN g.nodes e.src (fun n => { n with adj := n.adj ++ [e.dest] })
  let nodes := updN nodes e.dest (fun n => { n with adj := n.adj ++ [e.src] })
  let edges := g.edges ++ [e]
  { g with
    nodes := nodes
    edges := edges
    tot_edges := if 0 ≤ g.tot_edges ∧ (edges.length : Int) > g.tot_edges
                 then (edges.length : Int) else g.tot_edges }

/-- The scan of `Graph::get_node`: index of the first node in the list whose
`data` equals the argument. -/
def findNodeIdx : List Node → Int → Option Nat
  | [], _ => none
  | n :: t, d => if n.data == d then some 0 else (findNodeIdx t d).map (· + 1)

/-- `Graph::get_node` (graph.hpp:82-89): linear scan for the first node whose
`data` equals the argument; reports and returns `nullptr` (here `none`) when
no node matches. -/
def get_node (g : Graph) (data : Int) : Option Nat :=
  findNodeIdx g.nodes data

/-- Predicate of the scan in `Graph::get_edge`: the stored edge connects `a`
and `b` in either orientation. -/
def matchesPair (e : Edge) (a b : Nat) : Bool :=
  (e.src == a && e.dest == b) || (e.src == b && e.dest == a)

/-- `Graph::get_edge` (graph.hpp:91-99): linear scan over the edge store for
the first edge joining the two given nodes in either orientation; `nullptr`
(here `none`) when none matches. -/
def get_edge (g : Graph) (a b : Nat) : Option Edge :=
  g.edges.find? (fun e => matchesPair e a b)

/-- The node `Node(i)` created during load.  `node.hpp`'s constructor leaves
the search state at its defaults; `graph.hpp` never reads the search state
before `bfs`/`prim` overwrite it, so the values used here are immaterial. -/
def freshNode (i : Nat) : Node :=
  { data := (i : Int), adj := [], color := Color.white, distance := 0, predecessor := none }

/-- One edge line of `Graph::load` (graph.hpp:56-67): resolve both endpoint
ids and insert the edge only when both lookups succeed. -/
def loadEdgeLine (g : Graph) (line : Int × Int × Int) : Graph :=
  match get_node g line.1, get_node g line.2.1 with
  | some s, some d => insert_edge g { src := s, dest := d, weight := line.2.2 }
  | _, _ => g

/-- `Graph::load` (graph.hpp:41-68), after the text of the input has been
parsed (parsing is the concern of `format_line` and the string streams, which
the spec treats as an external deserialization collaborator): the header gives
`tot_nodes` and `tot_edges`, nodes `0 .. tot_nodes-1` are created, and each
subsequent triple `(src, dest, weight)` inserts an edge if and only if both
endpoint lookups succeed. -/
def load (header : Int × Int) (lines : List (Int × Int × Int)) : Graph :=
  let g0 : Graph := { nodes := [], edges := [], tot_nodes := header.1, tot_edges := header.2 }
  let g1 := (List.range header.1.toNat).foldl (fun g i => insert_node g (freshNode i)) g0
  lines.foldl loadEdgeLine g1

/-- The children of a node as counted by `Graph::is_binary`
(graph.hpp:178-190): adjacency entries that are not the node's predecessor
(a `Node*` comparison; with no predecessor every adjacency entry counts). -/
def countChildren (n : Node) : Nat :=
  n.adj.countP (fun a => decide (some a ≠ n.predecessor))

/-- The scratch vector built by `Graph::is_complete_binary`
(graph.hpp:192-207): the adjacency entries that are not the predecessor. -/
def childrenList (n : Node) : List Nat :=
  n.adj.filter (fun a => decide (some a ≠ n.predecessor))

/-- `Graph::is_binary` (graph.hpp:178-190): returns `false` on the first node
with more than two children, `true` otherwise. -/
def is_binary (g : Graph) : Bool :=
  g.nodes.all (fun n => !(decide (countChildren n > 2)))

/-- `Graph::is_complete_binary` (graph.hpp:192-207): returns `false` on the
first node whose children vector is nonempty with fewer than two entries,
`true` otherwise. -/
def is_complete_binary (g : Graph) : Bool :=
  g.nodes.all (fun n => !(!(childrenList n).isEmpty && decide ((childrenList n).length < 2)))

/-! ### Breadth-first search (graph.hpp:101-130) -/

/-- One neighbor inspection of the BFS inner loop (graph.hpp:119-126): a white
neighbor is grayed, gets the dequeued node as predecessor and distance one more
than it, and is enqueued at the back of the FIFO queue. -/
def bfsVisit (u : Nat) (acc : Graph × List Nat) (v : Nat) : Graph × List Nat :=
  if (nth acc.1 v).color = Color.white then
    (updNode acc.1 v (fun n =>
        { n with color := Color.gray, predecessor := some u,
                 distance := (nth acc.1 u).distance + 1 }),
     acc.2 ++ [v])
  else acc

/-- The BFS while-loop (graph.hpp:115-129): dequeue a node, inspect its
adjacency list in order, then mark it black.  The loop pops one queue element
per iteration and every node is enqueued at most once (only white nodes are
enqueued and they turn gray immediately), so any fuel of at least
`nodes.length + 1` runs it to queue exhaustion. -/
def bfsLoop : Nat → Graph → List Nat → Graph
  | 0, g, _ => g
  | _ + 1, g, [] => g
  | fuel + 1, g, u :: rest =>
    let gq := (nth g u).adj.foldl (bfsVisit u) (g, rest)
    bfsLoop fuel (updNode gq.1 u (fun n => { n with color := Color.black })) gq.2

/-- `Graph::bfs` (graph.hpp:101-130): reset every node to white / `INT_MAX` /
no predecessor, mark the source gray at distance 0, then run the queue
loop. -/
def bfs (g : Graph) (src : Nat) : Graph :=
  let g1 := { g with nodes := g.nodes.map (fun n =>
      { n with color := Color.white, predecessor := none, distance := INT_MAX }) }
  let g2 := updNode g1 src (fun n =>
      { n with distance := 0, color := Color.gray, predecessor := none })
  bfsLoop (g2.nodes.length + 1) g2 [src]

/-! ### The priority frontier of `Graph::prim`

`prim` uses `std::priority_queue<Node*, std::vector<Node*>, Compare>` where
`Compare` orders two `Node*` by their *current* distances (graph.hpp:17-19).
We model the container as the backing vector of node indices and translate the
libstdc++ heap routines that `std::priority_queue` is specified to use:
`push` appends and sifts the new element up (`std::push_heap`), `pop` moves
the front to the back, re-adjusts the prefix (`std::pop_heap`) and drops the
back, and `top` reads the front of the vector.  The comparator consults the
distances stored in the graph at the moment it is invoked, exactly as the C++
comparator does through the `Node*`. -/

/-- `Compare` (graph.hpp:17-19) applied through the current graph state. -/
def nodeDist (g : Graph) (i : Nat) : Int := (nth g i).distance

/-- The loop of libstdc++ `__push_heap(first, holeIndex, topIndex = 0, value)`:
walk the hole at `hole` up while the parent compares greater than `value`,
then drop `value` into the hole.  The hole index strictly decreases, so the
loop runs at most `hole + 1` times; the structural counter only bounds the
recursion and is never exhausted when initialized that way. -/
def heapSiftUpF : Nat → Graph → List Nat → Nat → Nat → List Nat
  | 0, _, arr, hole, value => arr.set hole value
  | fuel + 1, g, arr, hole, value =>
    if hole > 0 ∧ nodeDist g (arr.getD ((hole - 1) / 2) 0) > nodeDist g value then
      heapSiftUpF fuel g (arr.set hole (arr.getD ((hole - 1) / 2) 0)) ((hole - 1) / 2) value
    else arr.set hole value

/-- libstdc++ `__push_heap` with its loop bound supplied. -/
def heapSiftUp (g : Graph) (arr : List Nat) (hole : Nat) (value : Nat) : List Nat :=
  heapSiftUpF (hole + 1) g arr hole value

/-- `pq.push v`: append, then `std::push_heap` over the whole vector. -/
def pqPush (g : Graph) (arr : List Nat) (v : Nat) : List Nat :=
  heapSiftUp g (arr ++ [v]) arr.length v

/-- The descend loop of libstdc++ `__adjust_heap`: move the smaller-distance
child up into the hole until the hole has no two children, returning the final
array and hole position (`holeIndex` and `secondChild` coincide throughout).
`secondChild` at least doubles each round and stays below `(len - 1) / 2`, so
`len + 1` rounds are never exhausted. -/
def heapDescendF : Nat → Graph → List Nat → Nat → Nat → List Nat × Nat
  | 0, _, arr, sc, _ => (arr, sc)
  | fuel + 1, g, arr, sc, len =>
    if sc < (len - 1) / 2 then
      let sc2 := 2 * (sc + 1)
      let sc3 := if nodeDist g (arr.getD sc2 0) > nodeDist g (arr.getD (sc2 - 1) 0)
                 then sc2 - 1 else sc2
      heapDescendF fuel g (arr.set sc (arr.getD sc3 0)) sc3 len
    else (arr, sc)

/-- The descend phase of `__adjust_heap`, from the root hole. -/
def heapDescend (g : Graph) (arr : List Nat) (len : Nat) : List Nat × Nat :=
  heapDescendF (len + 1) g arr 0 len

/-- libstdc++ `__adjust_heap(first, 0, len, value)`: descend the hole from the
root, handle the dangling single child of an even-length heap, then sift
`value` up from the final hole. -/
def heapAdjust (g : Graph) (arr : List Nat) (len : Nat) (value : Nat) : List Nat :=
  let d := heapDescend g arr len
  let arr1 := d.1
  let hole := d.2
  if len % 2 == 0 && hole == (len - 2) / 2 then
    let sc2 := 2 * (hole + 1)
    heapSiftUp g (arr1.set hole (arr1.getD (sc2 - 1) 0)) (sc2 - 1) value
  else heapSiftUp g arr1 hole value

/-- `pq.pop()`: `std::pop_heap` (store the front at the back, adjust the
remaining prefix with the old back as the value) and `pop_back`. -/
def pqPop (g : Graph) (arr : List Nat) : List Nat :=
  match arr with
  | [] => []
  | [_] => []
  | _ =>
    let value := arr.getLastD 0
    let arr1 := arr.set (arr.length - 1) (arr.getD 0 0)
    (heapAdjust g arr1 (arr.length - 1) value).take (arr.length - 1)

/-! ### Prim's algorithm (graph.hpp:141-170) -/

/-- The state of `Graph::prim` between loop iterations: the graph (whose nodes
hold the distances and predecessors), the frontier vector `pq`, and the
committed set `in_mst` (a `std::set<Node*>`; only membership matters, modelled
as a duplicate-free list).  `err` is set where the C++ would dereference the
null result of a failed `get_edge` lookup (an internal-consistency violation);
`staleScans` is a ghost counter of adjacency entries inspected during dequeues
of nodes that were already committed — it influences nothing. -/
structure PrimState where
  g : Graph
  pq : List Nat
  in_mst : List Nat
  err : Bool
  staleScans : Nat
deriving DecidableEq, Repr

/-- `std::set<Node*>::insert`: membership-only model. -/
def setInsert (l : List Nat) (v : Nat) : List Nat := if v ∈ l then l else v :: l

/-- One neighbor inspection of prim's inner loop (graph.hpp:160-167): look the
edge up, and if the neighbor is uncommitted with a distance above the edge
weight, re-point its predecessor, lower its distance and push it.  When the
lookup fails, the `&&` short-circuit saves the C++ from the null dereference
only if the neighbor is already committed; otherwise the dereference is
flagged in `err`. -/
def primVisit (u : Nat) (s : PrimState) (v : Nat) : PrimState :=
  match get_edge s.g u v with
  | some e =>
    if v ∉ s.in_mst ∧ (nth s.g v).distance > e.weight then
      let g := updNode s.g v (fun n => { n with predecessor := some u, distance := e.weight })
      { s with g := g, pq := pqPush g s.pq v }
    else s
  | none =>
    if v ∈ s.in_mst then s else { s with err := true }

/-- One iteration of prim's while-loop (graph.hpp:155-169): read the top, pop
it, insert it into `in_mst`, then inspect its adjacency list in order.  There
is no committed check on the dequeued node itself. -/
def primStep (s : PrimState) : PrimState :=
  match s.pq with
  | [] => s
  | u :: _ =>
    let stale := u ∈ s.in_mst
    let s0 : PrimState :=
      { s with pq := pqPop s.g s.pq, in_mst := setInsert s.in_mst u,
               staleScans := s.staleScans +
                 (if stale then (nth s.g u).adj.length else 0) }
    (nth s.g u).adj.foldl (primVisit u) s0

/-- The state of `Graph::prim` just before its while-loop (graph.hpp:141-153):
distances reset to `INT_MAX`, predecessors cleared, source at distance 0,
frontier seeded with the source, committed set empty. -/
def primInit (g : Graph) (src : Nat) : PrimState :=
  let g1 := { g with nodes := g.nodes.map (fun n =>
      { n with distance := INT_MAX, predecessor := none }) }
  let g2 := updNode g1 src (fun n => { n with distance := 0, predecessor := none })
  { g := g2, pq := pqPush g2 [] src, in_mst := [], err := false, staleScans := 0 }

/-- Iterate `primStep` (it is the identity once the frontier is empty). -/
def primIter : Nat → PrimState → PrimState
  | 0, s => s
  | k + 1, s => primIter k (primStep s)

/-- Fuel that dominates the number of loop iterations: every pop matches a
push, and each push of a node strictly lowers its distance to the weight of
one of the stored edges, so at most `1 + nodes * edges` pushes ever happen. -/
def primFuel (g : Graph) : Nat := 1 + g.nodes.length * (g.edges.length + 1)

/-- `Graph::prim` (graph.hpp:141-170), run to completion. -/
def prim (g : Graph) (src : Nat) : Graph := (primIter (primFuel g) (primInit g src)).g

/-! ### Specification-side notions and concrete fixtures -/

instance : Inhabited Edge := ⟨⟨0, 0, 0⟩⟩

/-- The spec's notion behind `get_edge`: the stored edge joins the unordered
pair `{a, b}`, i.e. matches it in either orientation. -/
def JoinsPair (e : Edge) (a b : Nat) : Prop :=
  (e.src = a ∧ e.dest = b) ∨ (e.src = b ∧ e.dest = a)

/-- The edges `load` actually inserts: one per input line whose two endpoint
ids resolve to created nodes (ids `0 .. tot_nodes-1`). -/
def resolvedLines (header : Int × Int) (lines : List (Int × Int × Int)) : List Edge :=
  lines.filterMap (fun l =>
    if 0 ≤ l.1 ∧ l.1 < header.1 ∧ 0 ≤ l.2.1 ∧ l.2.1 < header.1
    then some ⟨l.1.toNat, l.2.1.toNat, l.2.2⟩ else none)

/-- Total weight of the predecessor edges left by `prim`: each non-source node
whose predecessor was set carries the weight of its chosen edge in
`distance`. -/
def primTotalWeight (g : Graph) (src : Nat) : Int :=
  (List.range g.nodes.length).foldl
    (fun a v => if v = src then a else a + (nth g v).distance) 0

/-- One closure round over a chosen edge list: add every node joined by one of
the edges to a node already reached. -/
def spanClose (es : List Edge) (reached : List Nat) : List Nat :=
  es.foldl (fun acc e =>
    if e.src ∈ acc ∧ ¬ e.dest ∈ acc then acc ++ [e.dest]
    else if e.dest ∈ acc ∧ ¬ e.src ∈ acc then acc ++ [e.src] else acc) reached

/-- The chosen edges (given by their indices into the edge store) connect
every node of the graph to node 0. -/
def connectsAll (g : Graph) (idxs : List Nat) : Bool :=
  let es := idxs.map (fun i => g.edges.getD i default)
  let r := (spanClose es)^[g.nodes.length] [0]
  (List.range g.nodes.length).all (· ∈ r)

/-- Total weight of the chosen edges. -/
def treeWeight (g : Graph) (idxs : List Nat) : Int :=
  idxs.foldl (fun a i => a + (g.edges.getD i default).weight) 0

/-- A spanning tree of the graph, as a duplicate-free selection of stored
edges: `nodes - 1` edges that connect all nodes. -/
def IsSpanningTree (g : Graph) (idxs : List Nat) : Prop :=
  idxs.Nodup ∧ (∀ i ∈ idxs, i < g.edges.length) ∧
  idxs.length + 1 = g.nodes.length ∧ connectsAll g idxs = true

instance (g : Graph) (idxs : List Nat) : Decidable (IsSpanningTree g idxs) :=
  decidable_of_iff (idxs.Nodup ∧ (∀ i ∈ idxs, i < g.edges.length) ∧
    idxs.length + 1 = g.nodes.length ∧ connectsAll g idxs = true) Iff.rfl

/-- Invariant of `prim`'s loop: a committed node's uncommitted neighbors
already sit at or below the weight of their connecting edge (so a second
dequeue of a committed node can relax nothing). -/
def CommittedSlack (s : PrimState) : Prop :=
  ∀ u ∈ s.in_mst, ∀ v ∈ (nth s.g u).adj, v ∉ s.in_mst →
    ∀ e, get_edge s.g u v = some e → (nth s.g v).distance ≤ e.weight

/-- The spec's store invariant: every adjacency entry references a node
present in the store. -/
def WfAdj (g : Graph) : Prop :=
  ∀ u : Nat, ∀ v ∈ (nth g u).adj, v < g.nodes.length

/-- Every adjacency entry has a backing edge record: the precondition under
which prim's `get_edge` lookups always succeed. -/
def EdgeBacked (g : Graph) : Prop :=
  ∀ u : Nat, ∀ v ∈ (nth g u).adj, ∃ e, get_edge g u v = some e

/-- Graphs whose adjacency lists were populated solely by `insert_edge`:
starting from a store with empty adjacency and no edges, nodes are appended
with empty adjacency and edges through `insert_edge`. -/
inductive BuiltAdj : Graph → Prop where
  | base (g : Graph) : (∀ n ∈ g.nodes, n.adj = []) → g.edges = [] → BuiltAdj g
  | node (g : Graph) (n : Node) : BuiltAdj g → n.adj = [] → BuiltAdj (insert_node g n)
  | edge (g : Graph) (e : Edge) : BuiltAdj g → BuiltAdj (insert_edge g e)

/-- Walks along adjacency lists: `Reaches g src v k` holds when some chain of
`k` adjacency steps leads from `src` to `v`. -/
inductive Reaches (g : Graph) (src : Nat) : Nat → Nat → Prop where
  | refl : Reaches g src src 0
  | step {u k v} : Reaches g src u k → v ∈ (nth g u).adj → Reaches g src v (k + 1)

/-- Reachability along adjacency lists. -/
def Reachable (g : Graph) (src v : Nat) : Prop := ∃ k, Reaches g src v k

/-- The path-graph fixture of the spec's concrete scenario: header `4 3`,
edges `(0,1,1)`, `(1,2,2)`, `(2,3,1)`. -/
def pathGraph : Graph := load (4, 3) [(0, 1, 1), (1, 2, 2), (2, 3, 1)]

/-- A complete graph on four nodes on which `prim` commits node 3 through the
weight-2 edge `(0,3)` although the two weight-1 edges `(0,1)`, `(1,3)` reach
it more cheaply: the mutable-key frontier leaves a cheaper node buried below
the root when its stale copy blocks the sift-up of its fresh copy. -/
def cexGraph : Graph :=
  load (4, 6) [(0, 2, 1), (0, 3, 2), (0, 1, 1), (1, 3, 1), (2, 3, 3), (1, 2, 3)]

/-- The star fixture: after BFS from the hub, the hub has three children and
each leaf none. -/
def starAfterBfs : Graph := bfs (load (4, 3) [(0, 1, 1), (0, 2, 1), (0, 3, 1)]) 0

/-- Number of white (unvisited) nodes: the termination measure of the BFS
loop, together with the queue length. -/
def countWhite (g : Graph) : Nat :=
  g.nodes.countP (fun n => n.color == Color.white)

/-- The invariant of the BFS while-loop, relating the graph state to the
pending queue.  It packages the classic facts: queue entries are exactly the
gray nodes (each once), discovered nodes carry final distances linked by
predecessor edges, white nodes are untouched, edges out of finished nodes
never skip a level, and the queue is sorted within a one-level window. -/
structure BfsInv (g : Graph) (src : Nat) (q : List Nat) : Prop where
  wf : WfAdj g
  hsrc : src < g.nodes.length
  qlt : ∀ v ∈ q, v < g.nodes.length
  qgray : ∀ v ∈ q, (nth g v).color = Color.gray
  grayq : ∀ v, v < g.nodes.length → (nth g v).color = Color.gray → v ∈ q
  qnodup : q.Nodup
  srcok : (nth g src).color ≠ Color.white ∧ (nth g src).distance = 0 ∧
    (nth g src).predecessor = none
  nonneg : ∀ v, v < g.nodes.length → (nth g v).color ≠ Color.white →
    0 ≤ (nth g v).distance
  tree : ∀ v, v < g.nodes.length → (nth g v).color ≠ Color.white → v ≠ src →
    ∃ u, (nth g v).predecessor = some u ∧ u < g.nodes.length ∧
      (nth g u).color ≠ Color.white ∧ v ∈ (nth g u).adj ∧
      (nth g v).distance = (nth g u).distance + 1
  white : ∀ v, v < g.nodes.length → (nth g v).color = Color.white →
    (nth g v).distance = INT_MAX ∧ (nth g v).predecessor = none
  blackE : ∀ u, u < g.nodes.length → (nth g u).color = Color.black →
    ∀ v ∈ (nth g u).adj, (nth g v).color ≠ Color.white ∧
      (nth g v).distance ≤ (nth g u).distance + 1
  sorted : q.Pairwise (fun a b => (nth g a).distance ≤ (nth g b).distance)
  window : ∀ h t, q = h :: t → ∀ v ∈ q,
    (nth g v).distance ≤ (nth g h).distance + 1
  level : ∀ h t, q = h :: t → ∀ v, v < g.nodes.length →
    (nth g v).color ≠ Color.white →
    (nth g v).distance ≤ (nth g h).distance + 1

/-! ## Theorems -/

theorem countChildren_eq_len (n : Node) : countChildren n = (childrenList n).length := by
  simp [countChildren, childrenList, List.countP_eq_length_filter]

/-- C5: `is_binary` is true iff every stored node has at most two children
(adjacency entries that are not its predecessor), and false iff some node's
count exceeds two. -/
theorem is_binary_iff (g : Graph) :
    (is_binary g = true ↔ ∀ n ∈ g.nodes, countChildren n ≤ 2) ∧
    (is_binary g = false ↔ ∃ n ∈ g.nodes, 2 < countChildren n) := by
  have h1 : is_binary g = true ↔ ∀ n ∈ g.nodes, countChildren n ≤ 2 := by
    simp [is_binary, List.all_eq_true, Nat.not_lt]
  refine ⟨h1, ?_⟩
  rw [Bool.eq_false_iff, Ne, h1]
  push_neg
  rfl

/-- C3 counterexample: on the star left by BFS the hub has three children
(neither zero nor two), yet `is_complete_binary` returns true — the check
only rejects nodes with exactly one child. -/
theorem is_complete_binary_claim_cex :
    is_complete_binary starAfterBfs = true ∧
    ∃ n ∈ starAfterBfs.nodes, countChildren n = 3 := by decide

/-- C3 (amended): `is_complete_binary` is true iff no stored node has exactly
one child, and false iff some node has exactly one. -/
theorem is_complete_binary_iff (g : Graph) :
    (is_complete_binary g = true ↔ ∀ n ∈ g.nodes, countChildren n ≠ 1) ∧
    (is_complete_binary g = false ↔ ∃ n ∈ g.nodes, countChildren n = 1) := by
  have hiff : ∀ n : Node,
      (!(!(childrenList n).isEmpty && decide ((childrenList n).length < 2))) = true ↔
        countChildren n ≠ 1 := by
    intro n
    rw [countChildren_eq_len]
    cases hl : childrenList n with
    | nil => simp
    | cons a t => cases t <;> simp
  have h1 : is_complete_binary g = true ↔ ∀ n ∈ g.nodes, countChildren n ≠ 1 := by
    rw [is_complete_binary, List.all_eq_true]
    exact ⟨fun H n hn => (hiff n).mp (H n hn), fun H n hn => (hiff n).mpr (H n hn)⟩
  refine ⟨h1, ?_⟩
  rw [Bool.eq_false_iff, Ne, h1]
  push_neg
  rfl

theorem find?_ext {α : Type} (p q : α → Bool) (hpq : ∀ x, p x = q x) :
    ∀ l : List α, l.find? p = l.find? q := by
  intro l
  induction l with
  | nil => rfl
  | cons x xs ih =>
    cases hx : p x with
    | true => rw [List.find?_cons_of_pos _ hx, List.find?_cons_of_pos _ ((hpq x) ▸ hx)]
    | false =>
      rw [List.find?_cons_of_neg _ (by simp [hx]), List.find?_cons_of_neg _ (by simp [← hpq x, hx]), ih]

theorem find?_first {α : Type} (p : α → Bool) :
    ∀ l : List α, ∀ e, l.find? p = some e →
      p e = true ∧ ∃ i, ∃ h : i < l.length, l.get ⟨i, h⟩ = e ∧
        ∀ j (hj : j < l.length), j < i → p (l.get ⟨j, hj⟩) = false := by
  intro l
  induction l with
  | nil => intro e h; simp at h
  | cons x xs ih =>
    intro e h
    cases hx : p x with
    | true =>
      rw [List.find?_cons_of_pos _ hx, Option.some.injEq] at h
      subst h
      exact ⟨hx, 0, by simp, rfl, fun j hj hj0 => absurd hj0 (Nat.not_lt_zero j)⟩
    | false =>
      rw [List.find?_cons_of_neg _ (by simp [hx])] at h
      obtain ⟨hpe, i, hi, hget, hfirst⟩ := ih e h
      refine ⟨hpe, i + 1, by simpa using Nat.succ_lt_succ hi, hget, ?_⟩
      intro j hj hji
      cases j with
      | zero => exact hx
      | succ j' => exact hfirst j' (by omega) (by omega)

theorem matchesPair_true_iff (e : Edge) (a b : Nat) :
    matchesPair e a b = true ↔ JoinsPair e a b := by
  simp [matchesPair, JoinsPair]

/-- C9: `get_edge` treats its arguments as an unordered pair — both argument
orders return the same result, namely the first stored edge joining the pair
in either orientation, or `none` when no stored edge joins it. -/
theorem get_edge_unordered (g : Graph) (a b : Nat) :
    get_edge g a b = get_edge g b a ∧
    (get_edge g a b = none ↔ ∀ e ∈ g.edges, ¬ JoinsPair e a b) ∧
    (∀ e, get_edge g a b = some e →
      JoinsPair e a b ∧ ∃ i, ∃ h : i < g.edges.length, g.edges.get ⟨i, h⟩ = e ∧
        ∀ j (hj : j < g.edges.length), j < i →
          ¬ JoinsPair (g.edges.get ⟨j, hj⟩) a b) := by
  refine ⟨?_, ?_, ?_⟩
  · exact find?_ext _ _ (fun e => by simp only [matchesPair]; rw [Bool.or_comm]) g.edges
  · rw [get_edge, List.find?_eq_none]
    exact ⟨fun H e he => fun hj => H e he ((matchesPair_true_iff e a b).mpr hj),
           fun H e he hm => H e he ((matchesPair_true_iff e a b).mp hm)⟩
  · intro e h
    obtain ⟨hpe, i, hi, hget, hfirst⟩ := find?_first _ g.edges e h
    exact ⟨(matchesPair_true_iff e a b).mp hpe, i, hi, hget,
           fun j hj hji hm =>
             absurd ((matchesPair_true_iff _ a b).mpr hm) (by simpa using hfirst j hj hji)⟩

/-- C9 witness: on the path fixture both orders of the pair `{0, 1}` yield
the stored edge `(0, 1, 1)`, which joins the pair. -/
theorem get_edge_unordered_witness : JoinsPair ⟨0, 1, 1⟩ 0 1 :=
  ((get_edge_unordered pathGraph 0 1).2.2 ⟨0, 1, 1⟩ (by decide)).1

theorem findNodeIdx_missing (d : Int) :
    ∀ l : List Node, (∀ n ∈ l, n.data ≠ d) → findNodeIdx l d = none := by
  intro l
  induction l with
  | nil => intro _; rfl
  | cons n t ih =>
    intro h
    have hn : (n.data == d) = false := by
      simpa using h n (List.mem_cons_self n t)
    simp [findNodeIdx, hn, ih (fun m hm => h m (List.mem_cons_of_mem n hm))]

theorem findNodeIdx_seq (x : Int) :
    ∀ (l : List Node) (start : Int) (k : Nat),
      l.map Node.data = (List.range k).map (fun i : Nat => start + (i : Int)) →
      findNodeIdx l x =
        if start ≤ x ∧ x < start + (k : Int) then some (x - start).toNat else none := by
  intro l
  induction l with
  | nil =>
    intro start k h
    have hk : k = 0 := by simpa using (congrArg List.length h).symm
    subst hk
    rw [if_neg (by push_cast; omega)]
    rfl
  | cons n t ih =>
    intro start k h
    cases k with
    | zero => simp at h
    | succ m =>
      rw [List.range_succ_eq_map, List.map_cons, List.map_cons, List.map_map] at h
      rw [List.cons_eq_cons] at h
      obtain ⟨hn, ht⟩ := h
      have ht' : t.map Node.data = (List.range m).map (fun i : Nat => (start + 1) + (i : Int)) := by
        rw [ht]
        apply List.map_congr_left
        intro i _
        simp [Function.comp]
        ring
      have hrec := ih (start + 1) m ht'
      by_cases hx : x = start
      · subst hx
        have hb : (n.data == x) = true := by simp [hn]
        simp only [findNodeIdx, hb, if_true]
        rw [if_pos (by push_cast; omega)]
        simp
      · have hb : (n.data == x) = false := by
          simp [hn]
          omega
        rw [findNodeIdx, if_neg (by simp [hb]), hrec]
        split_ifs with h1 h2 h2
        · simp only [Option.map_some']
          exact congrArg some (by omega)
        · exfalso; push_cast at h1 h2; omega
        · exfalso; push_cast at h1 h2; omega
        · rfl

theorem updN_map_proj {β : Type} (proj : Node → β) (f : Node → Node)
    (hf : ∀ n, proj (f n) = proj n) :
    ∀ (l : List Node) (i : Nat), (updN l i f).map proj = l.map proj := by
  intro l
  induction l with
  | nil => intro i; rfl
  | cons n t ih =>
    intro i
    cases i with
    | zero => simp [updN, hf]
    | succ j => simp [updN, ih j]

theorem updN_map_data (l : List Node) (i : Nat) (h : Node → List Nat) :
    (updN l i (fun n => { n with adj := h n })).map Node.data = l.map Node.data :=
  updN_map_proj Node.data (fun n => { n with adj := h n }) (fun n => rfl) l i

theorem insert_edge_map_data (g : Graph) (e : Edge) :
    (insert_edge g e).nodes.map Node.data = g.nodes.map Node.data := by
  simp only [insert_edge]
  rw [updN_map_data, updN_map_data]

theorem create_fold :
    ∀ (l : List Nat) (g : Graph),
      ((l.foldl (fun g i => insert_node g (freshNode i)) g).nodes
          = g.nodes ++ l.map freshNode) ∧
      ((l.foldl (fun g i => insert_node g (freshNode i)) g).edges = g.edges) ∧
      ((l.foldl (fun g i => insert_node g (freshNode i)) g).tot_edges = g.tot_edges) := by
  intro l
  induction l with
  | nil => intro g; simp
  | cons i t ih =>
    intro g
    obtain ⟨h1, h2, h3⟩ := ih (insert_node g (freshNode i))
    refine ⟨?_, by simpa [insert_node] using h2, by simpa [insert_node] using h3⟩
    rw [List.foldl_cons, h1]
    simp [insert_node]

theorem load_fold (hd : Int × Int) :
    ∀ (lines : List (Int × Int × Int)) (g : Graph),
      g.nodes.map Node.data = (List.range hd.1.toNat).map (fun i : Nat => (0 : Int) + (i : Int)) →
      (0 ≤ g.tot_edges → (g.edges.length : Int) ≤ g.tot_edges) →
      ((lines.foldl loadEdgeLine g).edges = g.edges ++ resolvedLines hd lines) ∧
      ((lines.foldl loadEdgeLine g).tot_edges =
        if 0 ≤ g.tot_edges ∧ ((g.edges.length : Int) + ((resolvedLines hd lines).length : Int)) > g.tot_edges
        then (g.edges.length : Int) + ((resolvedLines hd lines).length : Int)
        else g.tot_edges) ∧
      ((lines.foldl loadEdgeLine g).nodes.map Node.data = g.nodes.map Node.data) := by
  intro lines
  induction lines with
  | nil =>
    intro g hmap ht
    refine ⟨by simp [resolvedLines], ?_, rfl⟩
    simp only [List.foldl_nil, resolvedLines, List.filterMap_nil, List.length_nil]
    split_ifs with h1 <;> push_cast at h1 ⊢ <;> omega
  | cons line rest ih =>
    intro g hmap ht
    have hget1 : get_node g line.1 =
        if 0 ≤ line.1 ∧ line.1 < (hd.1.toNat : Int) then some line.1.toNat else none := by
      rw [get_node]
      have := findNodeIdx_seq line.1 g.nodes 0 hd.1.toNat hmap
      simpa using this
    have hget2 : get_node g line.2.1 =
        if 0 ≤ line.2.1 ∧ line.2.1 < (hd.1.toNat : Int) then some line.2.1.toNat else none := by
      rw [get_node]
      have := findNodeIdx_seq line.2.1 g.nodes 0 hd.1.toNat hmap
      simpa using this
    by_cases hc : 0 ≤ line.1 ∧ line.1 < hd.1 ∧ 0 ≤ line.2.1 ∧ line.2.1 < hd.1
    · have hc1 : 0 ≤ line.1 ∧ line.1 < (hd.1.toNat : Int) := by omega
      have hc2 : 0 ≤ line.2.1 ∧ line.2.1 < (hd.1.toNat : Int) := by omega
      have hstep : loadEdgeLine g line =
          insert_edge g { src := line.1.toNat, dest := line.2.1.toNat, weight := line.2.2 } := by
        rw [loadEdgeLine, hget1, hget2, if_pos hc1, if_pos hc2]
      have hres : resolvedLines hd (line :: rest) =
          ({ src := line.1.toNat, dest := line.2.1.toNat, weight := line.2.2 } : Edge)
            :: resolvedLines hd rest := by
        simp only [resolvedLines, List.filterMap_cons]
        rw [if_pos hc]
      have hmap1 : (insert_edge g { src := line.1.toNat, dest := line.2.1.toNat, weight := line.2.2 }).nodes.map Node.data
          = (List.range hd.1.toNat).map (fun i : Nat => (0 : Int) + (i : Int)) := by
        rw [insert_edge_map_data, hmap]
      have hedges1 : (insert_edge g { src := line.1.toNat, dest := line.2.1.toNat, weight := line.2.2 }).edges
          = g.edges ++ [{ src := line.1.toNat, dest := line.2.1.toNat, weight := line.2.2 }] := rfl
      have htot1 : (insert_edge g { src := line.1.toNat, dest := line.2.1.toNat, weight := line.2.2 }).tot_edges =
          if 0 ≤ g.tot_edges ∧ ((g.edges.length : Int) + 1) > g.tot_edges
          then (g.edges.length : Int) + 1 else g.tot_edges := by
        simp only [insert_edge, List.length_append, List.length_cons, List.length_nil]
        push_cast
        rfl
      have ht1 : 0 ≤ (insert_edge g { src := line.1.toNat, dest := line.2.1.toNat, weight := line.2.2 }).tot_edges →
          ((insert_edge g { src := line.1.toNat, dest := line.2.1.toNat, weight := line.2.2 }).edges.length : Int)
            ≤ (insert_edge g { src := line.1.toNat, dest := line.2.1.toNat, weight := line.2.2 }).tot_edges := by
        rw [hedges1, htot1]
        simp only [List.length_append, List.length_cons, List.length_nil]
        push_cast
        split_ifs <;> omega
      obtain ⟨h1, h2, h3⟩ := ih (insert_edge g { src := line.1.toNat, dest := line.2.1.toNat, weight := line.2.2 }) hmap1 ht1
      refine ⟨?_, ?_, ?_⟩
      · rw [List.foldl_cons, hstep, h1, hres, hedges1]
        simp
      · rw [List.foldl_cons, hstep, h2, htot1, hres, hedges1]
        simp only [List.length_append, List.length_cons, List.length_nil]
        push_cast
        split_ifs <;> omega
      · rw [List.foldl_cons, hstep, h3, hmap1, hmap]
    · have hstep : loadEdgeLine g line = g := by
        rw [loadEdgeLine, hget1, hget2]
        by_cases h1 : 0 ≤ line.1 ∧ line.1 < (hd.1.toNat : Int)
        · have h2 : ¬(0 ≤ line.2.1 ∧ line.2.1 < (hd.1.toNat : Int)) := by
            push_cast at h1 ⊢
            omega
          rw [if_pos h1, if_neg h2]
        · rw [if_neg h1]
      have hres : resolvedLines hd (line :: rest) = resolvedLines hd rest := by
        simp only [resolvedLines, List.filterMap_cons]
        rw [if_neg hc]
      obtain ⟨h1, h2, h3⟩ := ih g hmap ht
      rw [List.foldl_cons, hstep, hres]
      exact ⟨h1, h2, h3⟩

/-- C8 counterexample: the load line `(0, 5, 7)` names the unknown node id 5,
so no edge is inserted — but the edge count `tot_edges` keeps the declared
header value 1 instead of excluding the skipped edge (it does not drop to the
actual count 0). -/
theorem load_count_claim_cex :
    (load (2, 1) [(0, 5, 7)]).edges = [] ∧
    (load (2, 1) [(0, 5, 7)]).tot_edges = 1 ∧ (1 : Int) ≠ 0 := by decide

/-- C8 (amended): a lookup with an id matching no stored node returns the
null result (a reported diagnostic, no crash), and a load line naming an
unknown endpoint inserts no edge — the edge store holds exactly the lines
whose endpoints both resolve.  The `tot_edges` counter, however, is only
ratcheted up from the declared header count, so when lines are skipped it
retains the declared value rather than the actual number of stored edges. -/
theorem get_node_missing_and_load_skips :
    (∀ (g : Graph) (d : Int), (∀ n ∈ g.nodes, n.data ≠ d) → get_node g d = none) ∧
    ∀ (header : Int × Int) (lines : List (Int × Int × Int)),
      ((load header lines).edges = resolvedLines header lines) ∧
      ((load header lines).tot_edges =
        if 0 ≤ header.2 ∧ (((resolvedLines header lines).length : Int)) > header.2
        then ((resolvedLines header lines).length : Int) else header.2) := by
  constructor
  · intro g d h
    exact findNodeIdx_missing d g.nodes h
  · intro header lines
    obtain ⟨hc1, hc2, hc3⟩ := create_fold (List.range header.1.toNat)
      { nodes := [], edges := [], tot_nodes := header.1, tot_edges := header.2 }
    set g1 := (List.range header.1.toNat).foldl
      (fun g i => insert_node g (freshNode i))
      { nodes := [], edges := [], tot_nodes := header.1, tot_edges := header.2 } with hg1
    have hmap : g1.nodes.map Node.data =
        (List.range header.1.toNat).map (fun i : Nat => (0 : Int) + (i : Int)) := by
      rw [hc1]
      simp [freshNode, List.map_map, Function.comp]
    obtain ⟨h1, h2, h3⟩ := load_fold header lines g1 hmap
      (by rw [hc2, hc3]; intro h; simpa using h)
    have hload : load header lines = lines.foldl loadEdgeLine g1 := rfl
    rw [hload, h1, h2, hc2, hc3]
    simp

/-- C8 witness: the unknown id 5 in the two-node store indeed yields the null
lookup result. -/
theorem get_node_missing_witness : get_node (load (2, 1) [(0, 5, 7)]) 5 = none :=
  get_node_missing_and_load_skips.1 (load (2, 1) [(0, 5, 7)]) 5 (by decide)

/-! ### Toolkit for the pointer-update embedding -/

theorem updN_length (f : Node → Node) :
    ∀ (l : List Node) (i : Nat), (updN l i f).length = l.length := by
  intro l
  induction l with
  | nil => intro i; rfl
  | cons x xs ih => intro i; cases i with
    | zero => rfl
    | succ j => simpa [updN] using ih j

theorem updN_oob (f : Node → Node) :
    ∀ (l : List Node) (i : Nat), l.length ≤ i → updN l i f = l := by
  intro l
  induction l with
  | nil => intro i _; rfl
  | cons x xs ih => intro i hi; cases i with
    | zero => simp at hi
    | succ j => simpa [updN] using ih j (by simpa using hi)

theorem getD_updN_self (f : Node → Node) (d : Node) :
    ∀ (l : List Node) (i : Nat), i < l.length →
      (updN l i f).getD i d = f (l.getD i d) := by
  intro l
  induction l with
  | nil => intro i hi; simp at hi
  | cons x xs ih => intro i hi; cases i with
    | zero => rfl
    | succ j => simpa [updN] using ih j (by simpa using hi)

theorem getD_updN_other (f : Node → Node) (d : Node) :
    ∀ (l : List Node) (i j : Nat), j ≠ i → (updN l i f).getD j d = l.getD j d := by
  intro l
  induction l with
  | nil => intro i j _; rfl
  | cons x xs ih =>
    intro i j hji
    cases i with
    | zero => cases j with
      | zero => exact absurd rfl hji
      | succ j2 => rfl
    | succ i2 => cases j with
      | zero => rfl
      | succ j2 => simpa [updN] using ih i2 j2 (by omega)

theorem updNode_length (g : Graph) (i : Nat) (f : Node → Node) :
    (updNode g i f).nodes.length = g.nodes.length := updN_length f g.nodes i

theorem nth_updNode_self (g : Graph) (i : Nat) (f : Node → Node)
    (h : i < g.nodes.length) : nth (updNode g i f) i = f (nth g i) :=
  getD_updN_self f default g.nodes i h

theorem nth_updNode_other (g : Graph) (i j : Nat) (f : Node → Node)
    (h : j ≠ i) : nth (updNode g i f) j = nth g j :=
  getD_updN_other f default g.nodes i j h

theorem nth_updNode (g : Graph) (i j : Nat) (f : Node → Node) :
    nth (updNode g i f) j = if j = i ∧ i < g.nodes.length then f (nth g i) else nth g j := by
  split_ifs with h
  · rw [h.1]; exact nth_updNode_self g i f h.2
  · by_cases hj : j = i
    · subst hj
      have hlen : g.nodes.length ≤ j := by
        rcases Nat.lt_or_ge j g.nodes.length with hlt | hge
        · exact absurd ⟨rfl, hlt⟩ h
        · exact hge
      rw [updNode, nth, nth, updN_oob f g.nodes j hlen]
    · exact nth_updNode_other g i j f hj

theorem get_edge_congr (g g' : Graph) (a b : Nat) (h : g'.edges = g.edges) :
    get_edge g' a b = get_edge g a b := by
  rw [get_edge, get_edge, h]

/-! ### Invariants of `prim`'s loop -/

theorem primVisit_fields (u v : Nat) (s : PrimState) :
    (primVisit u s v).in_mst = s.in_mst ∧
    (primVisit u s v).g.edges = s.g.edges ∧
    (primVisit u s v).g.nodes.length = s.g.nodes.length ∧
    (primVisit u s v).g.tot_nodes = s.g.tot_nodes ∧
    (primVisit u s v).g.tot_edges = s.g.tot_edges ∧
    (primVisit u s v).staleScans = s.staleScans ∧
    (∀ w, (nth (primVisit u s v).g w).adj = (nth s.g w).adj ∧
          (nth (primVisit u s v).g w).data = (nth s.g w).data ∧
          (nth (primVisit u s v).g w).color = (nth s.g w).color) ∧
    (∀ w, (nth (primVisit u s v).g w).distance ≤ (nth s.g w).distance) ∧
    (∀ w, w ∈ s.in_mst → nth (primVisit u s v).g w = nth s.g w) := by
  cases hge : get_edge s.g u v with
  | none =>
    simp only [primVisit, hge]
    split_ifs <;>
      exact ⟨rfl, rfl, rfl, rfl, rfl, rfl, fun w => ⟨rfl, rfl, rfl⟩, fun w => le_refl _,
             fun w _ => rfl⟩
  | some e =>
    simp only [primVisit, hge]
    split_ifs with hcond
    · refine ⟨rfl, rfl, updNode_length _ _ _, rfl, rfl, rfl, ?_, ?_, ?_⟩
      · intro w
        rw [nth_updNode]
        split_ifs with hw
        · rw [hw.1]; exact ⟨rfl, rfl, rfl⟩
        · exact ⟨rfl, rfl, rfl⟩
      · intro w
        rw [nth_updNode]
        split_ifs with hw
        · rw [hw.1]
          exact le_of_lt hcond.2
        · exact le_refl _
      · intro w hw
        rw [nth_updNode]
        rw [if_neg]
        intro hcontra
        exact hcond.1 (hcontra.1 ▸ hw)
    · exact ⟨rfl, rfl, rfl, rfl, rfl, rfl, fun w => ⟨rfl, rfl, rfl⟩, fun w => le_refl _,
             fun w _ => rfl⟩

theorem primVisitFold_fields (u : Nat) :
    ∀ (L : List Nat) (s : PrimState),
      ((L.foldl (primVisit u) s).in_mst = s.in_mst) ∧
      ((L.foldl (primVisit u) s).g.edges = s.g.edges) ∧
      ((L.foldl (primVisit u) s).g.nodes.length = s.g.nodes.length) ∧
      ((L.foldl (primVisit u) s).g.tot_nodes = s.g.tot_nodes) ∧
      ((L.foldl (primVisit u) s).g.tot_edges = s.g.tot_edges) ∧
      ((L.foldl (primVisit u) s).staleScans = s.staleScans) ∧
      (∀ w, (nth (L.foldl (primVisit u) s).g w).adj = (nth s.g w).adj ∧
            (nth (L.foldl (primVisit u) s).g w).data = (nth s.g w).data ∧
            (nth (L.foldl (primVisit u) s).g w).color = (nth s.g w).color) ∧
      (∀ w, (nth (L.foldl (primVisit u) s).g w).distance ≤ (nth s.g w).distance) ∧
      (∀ w, w ∈ s.in_mst → nth (L.foldl (primVisit u) s).g w = nth s.g w) := by
  intro L
  induction L with
  | nil =>
    intro s
    exact ⟨rfl, rfl, rfl, rfl, rfl, rfl, fun w => ⟨rfl, rfl, rfl⟩, fun w => le_refl _,
           fun w _ => rfl⟩
  | cons v L ih =>
    intro s
    obtain ⟨v1, v2, v3, v4, v5, v6, v7, v8, v9⟩ := primVisit_fields u v s
    obtain ⟨i1, i2, i3, i4, i5, i6, i7, i8, i9⟩ := ih (primVisit u s v)
    rw [List.foldl_cons]
    refine ⟨i1.trans v1, i2.trans v2, i3.trans v3, i4.trans v4, i5.trans v5, i6.trans v6,
            ?_, ?_, ?_⟩
    · intro w
      obtain ⟨a1, a2, a3⟩ := i7 w
      obtain ⟨b1, b2, b3⟩ := v7 w
      exact ⟨a1.trans b1, a2.trans b2, a3.trans b3⟩
    · intro w
      exact le_trans (i8 w) (v8 w)
    · intro w hw
      exact (i9 w (v1 ▸ hw)).trans (v9 w hw)

theorem mem_setInsert (l : List Nat) (v w : Nat) :
    w ∈ setInsert l v ↔ w = v ∨ w ∈ l := by
  rw [setInsert]
  split_ifs with h
  · exact ⟨fun hw => Or.inr hw, fun hw => hw.elim (fun he => he ▸ h) id⟩
  · exact List.mem_cons

theorem setInsert_of_mem {l : List Nat} {v : Nat} (h : v ∈ l) : setInsert l v = l :=
  if_pos h

theorem getD_map (f : Node → Node) :
    ∀ (l : List Node) (i : Nat),
      (l.map f).getD i default = if i < l.length then f (l.getD i default) else default := by
  intro l
  induction l with
  | nil => intro i; simp
  | cons x t ih =>
    intro i
    cases i with
    | zero => simp
    | succ j =>
      have := ih j
      simp only [List.map_cons, List.getD_cons_succ, List.length_cons, this]
      split_ifs with h1 h2 h2 <;> first | rfl | omega

theorem nth_mapNodes (g : Graph) (f : Node → Node) (i : Nat) :
    nth { g with nodes := g.nodes.map f } i =
      if i < g.nodes.length then f (nth g i) else default := by
  show (g.nodes.map f).getD i default = _
  rw [getD_map]
  rfl

theorem primInit_g (g : Graph) (src : Nat) :
    (primInit g src).g.edges = g.edges ∧
    (primInit g src).g.nodes.length = g.nodes.length ∧
    (primInit g src).g.tot_nodes = g.tot_nodes ∧
    (primInit g src).g.tot_edges = g.tot_edges ∧
    (∀ w, (nth (primInit g src).g w).adj = (nth g w).adj ∧
          (nth (primInit g src).g w).data = (nth g w).data ∧
          (nth (primInit g src).g w).color = (nth g w).color) := by
  have hg : (primInit g src).g =
      updNode { g with nodes := g.nodes.map (fun n =>
        { n with distance := INT_MAX, predecessor := none }) } src
        (fun n => { n with distance := 0, predecessor := none }) := rfl
  have hlen : (primInit g src).g.nodes.length = g.nodes.length := by
    rw [hg, updNode_length]
    simp
  refine ⟨rfl, hlen, rfl, rfl, ?_⟩
  intro w
  rw [hg, nth_updNode]
  split_ifs with h
  · rw [h.1, nth_mapNodes]
    have hlt : src < g.nodes.length := by
      have := h.2
      simpa using this
    rw [if_pos hlt]
    exact ⟨rfl, rfl, rfl⟩
  · rw [nth_mapNodes]
    split_ifs with hw
    · exact ⟨rfl, rfl, rfl⟩
    · rw [nth, List.getD_eq_default _ _ (by omega)]
      exact ⟨rfl, rfl, rfl⟩

theorem wfAdj_of_bounded (g : Graph)
    (h : ∀ u, u < g.nodes.length → ∀ v ∈ (nth g u).adj, v < g.nodes.length) :
    WfAdj g := by
  intro u v hv
  by_cases hu : u < g.nodes.length
  · exact h u hu v hv
  · rw [nth, List.getD_eq_default _ _ (by omega)] at hv
    exact absurd hv (List.not_mem_nil v)

theorem primInit_slack_wf (g : Graph) (src : Nat) (hwf : WfAdj g) :
    CommittedSlack (primInit g src) ∧ WfAdj (primInit g src).g := by
  constructor
  · intro u hu
    exact absurd hu (List.not_mem_nil u)
  · intro w v hv
    obtain ⟨e1, e2, e3, e4, e5⟩ := primInit_g g src
    rw [(e5 w).1] at hv
    rw [e2]
    exact hwf w v hv

theorem primVisitFold_slack (u : Nat) :
    ∀ (L : List Nat) (s : PrimState),
      (∀ v ∈ L, v < s.g.nodes.length) →
      ∀ v ∈ L, v ∉ s.in_mst →
        ∀ e, get_edge s.g u v = some e →
          (nth (L.foldl (primVisit u) s).g v).distance ≤ e.weight := by
  intro L
  induction L with
  | nil => intro s _ v hv; exact absurd hv (List.not_mem_nil v)
  | cons v0 L ih =>
    intro s hlen v hv hnot e hge
    obtain ⟨v1, v2, v3, v4, v5, v6, v7, v8, v9⟩ := primVisit_fields u v0 s
    rcases List.mem_cons.mp hv with hv0 | hvL
    · subst hv0
      have hmid : (nth (primVisit u s v).g v).distance ≤ e.weight := by
        cases hge2 : get_edge s.g u v with
        | none => rw [hge2] at hge; exact absurd hge (by simp)
        | some e2 =>
          rw [hge2] at hge
          obtain rfl : e = e2 := by simpa using hge.symm
          simp only [primVisit, hge2]
          split_ifs with hcond
          · show (nth (updNode s.g v _) v).distance ≤ e.weight
            rw [nth_updNode_self s.g v _ (hlen v hv)]
          · push_neg at hcond
            have := hcond hnot
            show (nth s.g v).distance ≤ e.weight
            omega
      calc (nth ((v :: L).foldl (primVisit u) s).g v).distance
          ≤ (nth (primVisit u s v).g v).distance :=
            (primVisitFold_fields u L (primVisit u s v)).2.2.2.2.2.2.2.1 v
        _ ≤ e.weight := hmid
    · rw [List.foldl_cons]
      refine ih (primVisit u s v0) ?_ v hvL ?_ e ?_
      · intro w hw
        rw [v3]
        exact hlen w (List.mem_cons_of_mem v0 hw)
      · rw [v1]; exact hnot
      · rw [get_edge_congr s.g (primVisit u s v0).g u v v2]; exact hge

theorem primStep_cons (g0 : Graph) (u : Nat) (rest inm : List Nat)
    (err0 : Bool) (sc0 : Nat) :
    primStep ⟨g0, u :: rest, inm, err0, sc0⟩ =
      ((nth g0 u).adj).foldl (primVisit u)
        ⟨g0, pqPop g0 (u :: rest), setInsert inm u, err0,
         sc0 + (if u ∈ inm then (nth g0 u).adj.length else 0)⟩ := rfl

theorem primStep_preserves (s : PrimState)
    (h : CommittedSlack s ∧ WfAdj s.g) :
    CommittedSlack (primStep s) ∧ WfAdj (primStep s).g := by
  obtain ⟨hs, hwf⟩ := h
  obtain ⟨g0, pq0, inm, err0, sc0⟩ := s
  cases pq0 with
  | nil => exact ⟨hs, hwf⟩
  | cons u rest =>
    rw [primStep_cons]
    obtain ⟨f1, f2, f3, f4, f5, f6, f7, f8, f9⟩ :=
      primVisitFold_fields u (nth g0 u).adj
        ⟨g0, pqPop g0 (u :: rest), setInsert inm u, err0,
         sc0 + (if u ∈ inm then (nth g0 u).adj.length else 0)⟩
    constructor
    · intro u2 hu2 v hv hnot e hge
      rw [f1] at hu2 hnot
      rw [(f7 u2).1] at hv
      rw [get_edge_congr g0 _ u2 v f2] at hge
      rcases (mem_setInsert inm u u2).mp hu2 with rfl | hmem
      · exact primVisitFold_slack u2 (nth g0 u2).adj
          ⟨g0, pqPop g0 (u2 :: rest), setInsert inm u2, err0,
           sc0 + (if u2 ∈ inm then (nth g0 u2).adj.length else 0)⟩
          (fun w hw => hwf u2 w hw) v hv hnot e hge
      · have hnot0 : v ∉ inm := fun hvm => hnot ((mem_setInsert inm u v).mpr (Or.inr hvm))
        exact le_trans (f8 v) (hs u2 hmem v hv hnot0 e hge)
    · intro w v hv
      rw [(f7 w).1] at hv
      rw [f3]
      exact hwf w v hv

theorem primIter_preserves :
    ∀ (k : Nat) (s : PrimState), CommittedSlack s ∧ WfAdj s.g →
      CommittedSlack (primIter k s) ∧ WfAdj (primIter k s).g := by
  intro k
  induction k with
  | zero => intro s h; exact h
  | succ m ih => intro s h; exact ih (primStep s) (primStep_preserves s h)

theorem primVisit_fixed (u v : Nat) (s : PrimState)
    (h : v ∈ s.in_mst ∨ (∀ e, get_edge s.g u v = some e → ¬((nth s.g v).distance > e.weight))) :
    (primVisit u s v).g = s.g ∧ (primVisit u s v).pq = s.pq ∧
    (primVisit u s v).in_mst = s.in_mst := by
  cases hge : get_edge s.g u v with
  | none =>
    simp only [primVisit, hge]
    split_ifs <;> exact ⟨rfl, rfl, rfl⟩
  | some e =>
    simp only [primVisit, hge]
    rw [if_neg]
    · exact ⟨rfl, rfl, rfl⟩
    · rcases h with hmem | hle
      · intro hcond; exact hcond.1 hmem
      · intro hcond; exact (hle e hge) hcond.2

theorem primVisitFold_fixed (u : Nat) :
    ∀ (L : List Nat) (s : PrimState),
      (∀ v ∈ L, v ∈ s.in_mst ∨
        (∀ e, get_edge s.g u v = some e → ¬((nth s.g v).distance > e.weight))) →
      (L.foldl (primVisit u) s).g = s.g ∧ (L.foldl (primVisit u) s).pq = s.pq ∧
      (L.foldl (primVisit u) s).in_mst = s.in_mst := by
  intro L
  induction L with
  | nil => intro s _; exact ⟨rfl, rfl, rfl⟩
  | cons v0 L ih =>
    intro s h
    obtain ⟨k1, k2, k3⟩ := primVisit_fixed u v0 s (h v0 (List.mem_cons_self v0 L))
    rw [List.foldl_cons]
    obtain ⟨r1, r2, r3⟩ := ih (primVisit u s v0) (by
      intro v hv
      rw [k1, k3]
      exact h v (List.mem_cons_of_mem v0 hv))
    exact ⟨r1.trans k1, r2.trans k2, r3.trans k3⟩

theorem primStep_stale (s : PrimState) (hs : CommittedSlack s) (u : Nat)
    (hu : s.pq.head? = some u) (hc : u ∈ s.in_mst) :
    (primStep s).g = s.g ∧ (primStep s).in_mst = s.in_mst ∧
    (primStep s).pq = pqPop s.g s.pq := by
  obtain ⟨g0, pq0, inm, err0, sc0⟩ := s
  cases pq0 with
  | nil => exact absurd hu (by simp)
  | cons u2 rest =>
    obtain rfl : u = u2 := by simpa using hu.symm
    have hin : setInsert inm u = inm := setInsert_of_mem hc
    rw [primStep_cons]
    obtain ⟨r1, r2, r3⟩ := primVisitFold_fixed u (nth g0 u).adj
      ⟨g0, pqPop g0 (u :: rest), setInsert inm u, err0,
       sc0 + (if u ∈ inm then (nth g0 u).adj.length else 0)⟩
      (by
        intro v hv
        show v ∈ setInsert inm u ∨ _
        rw [hin]
        by_cases hvm : v ∈ inm
        · exact Or.inl hvm
        · refine Or.inr (fun e hge => ?_)
          have h2 : (nth g0 v).distance ≤ e.weight := hs u hc v hv hvm e hge
          show ¬((nth g0 v).distance > e.weight)
          omega)
    exact ⟨r1, r3.trans hin, r2⟩

/-- C4 counterexample: after four iterations of `prim` on the four-node
fixture the frontier's top is node 1, which is already committed, yet the
ensuing dequeue re-scans all three of node 1's adjacency entries (the ghost
scan counter rises from 0 to 3): the dequeued duplicate is not skipped — there
is no committed check at dequeue time, only inside the neighbor loop. -/
theorem prim_stale_dequeue_rescans_cex :
    (primIter 4 (primInit cexGraph 2)).pq.head? = some 1 ∧
    1 ∈ (primIter 4 (primInit cexGraph 2)).in_mst ∧
    (primIter 4 (primInit cexGraph 2)).staleScans = 0 ∧
    (primStep (primIter 4 (primInit cexGraph 2))).staleScans = 3 := by decide

/-- C4 (amended): when the frontier's top is an already committed node — a
stale duplicate — the ensuing iteration does re-scan its adjacency list, but
the committed check in the neighbor loop and the already-settled distances
make the re-scan harmless: the graph (all distances and predecessors) and the
committed set are unchanged, and the frontier merely loses the popped entry
(nothing is pushed).  `g` is any graph whose adjacency references stay inside
the store, and the state is any one reachable in `k` iterations of `prim`
from `src`. -/
theorem prim_stale_dequeue_no_update (g : Graph) (src k u : Nat)
    (hwf : WfAdj g)
    (hu : (primIter k (primInit g src)).pq.head? = some u)
    (hc : u ∈ (primIter k (primInit g src)).in_mst) :
    (primStep (primIter k (primInit g src))).g = (primIter k (primInit g src)).g ∧
    (primStep (primIter k (primInit g src))).in_mst = (primIter k (primInit g src)).in_mst ∧
    (primStep (primIter k (primInit g src))).pq =
      pqPop (primIter k (primInit g src)).g (primIter k (primInit g src)).pq := by
  have hinv := primIter_preserves k (primInit g src) (primInit_slack_wf g src hwf)
  exact primStep_stale (primIter k (primInit g src)) hinv.1 u hu hc

/-- C4 witness: the amended statement applied to the concrete stale dequeue
of node 1 on the fixture. -/
theorem prim_stale_dequeue_no_update_witness :
    (primStep (primIter 4 (primInit cexGraph 2))).in_mst =
      (primIter 4 (primInit cexGraph 2)).in_mst :=
  (prim_stale_dequeue_no_update cexGraph 2 4 1
    (wfAdj_of_bounded cexGraph (by decide)) (by decide) (by decide)).2.1

/-! ### Adjacency entries are always backed by a stored edge -/

theorem find?_append_some {α : Type} (p : α → Bool) (l1 l2 : List α) (e : α)
    (h : l1.find? p = some e) : (l1 ++ l2).find? p = some e := by
  induction l1 with
  | nil => simp at h
  | cons x t ih =>
    cases hx : p x with
    | true =>
      rw [List.find?_cons_of_pos _ hx] at h
      rw [List.cons_append, List.find?_cons_of_pos _ hx]
      exact h
    | false =>
      rw [List.find?_cons_of_neg _ (by simp [hx])] at h
      rw [List.cons_append, List.find?_cons_of_neg _ (by simp [hx])]
      exact ih h

theorem find?_append_none {α : Type} (p : α → Bool) (l1 l2 : List α)
    (h : l1.find? p = none) : (l1 ++ l2).find? p = l2.find? p := by
  induction l1 with
  | nil => rfl
  | cons x t ih =>
    cases hx : p x with
    | true => rw [List.find?_cons_of_pos _ hx] at h; exact absurd h (by simp)
    | false =>
      rw [List.find?_cons_of_neg _ (by simp [hx])] at h
      rw [List.cons_append, List.find?_cons_of_neg _ (by simp [hx])]
      exact ih h

theorem getD_updN (f : Node → Node) (d : Node) (l : List Node) (i j : Nat) :
    (updN l i f).getD j d = if j = i ∧ i < l.length then f (l.getD j d) else l.getD j d := by
  split_ifs with h
  · rw [h.1]; exact getD_updN_self f d l i h.2
  · by_cases hj : j = i
    · subst hj
      have hge : l.length ≤ j := by
        rcases Nat.lt_or_ge j l.length with hlt | hge2
        · exact absurd ⟨rfl, hlt⟩ h
        · exact hge2
      rw [updN_oob f l j hge]
    · exact getD_updN_other f d l i j hj

theorem mem_adj_insert_edge (g : Graph) (e : Edge) (u v : Nat)
    (hv : v ∈ (nth (insert_edge g e) u).adj) :
    v ∈ (nth g u).adj ∨ (u = e.src ∧ v = e.dest) ∨ (u = e.dest ∧ v = e.src) := by
  have hrw : nth (insert_edge g e) u =
      (updN (updN g.nodes e.src (fun n => { n with adj := n.adj ++ [e.dest] }))
        e.dest (fun n => { n with adj := n.adj ++ [e.src] })).getD u default := rfl
  rw [hrw, getD_updN] at hv
  split_ifs at hv with hdest
  · have hv2 : v ∈ ((updN g.nodes e.src (fun n => { n with adj := n.adj ++ [e.dest] })).getD
        u default).adj ++ [e.src] := hv
    rcases List.mem_append.mp hv2 with hv3 | hv3
    · rw [getD_updN] at hv3
      split_ifs at hv3 with hsrc
      · rcases List.mem_append.mp hv3 with hv4 | hv4
        · exact Or.inl hv4
        · exact Or.inr (Or.inl ⟨hsrc.1, List.mem_singleton.mp hv4⟩)
      · exact Or.inl hv3
    · exact Or.inr (Or.inr ⟨hdest.1, List.mem_singleton.mp hv3⟩)
  · rw [getD_updN] at hv
    split_ifs at hv with hsrc
    · rcases List.mem_append.mp hv with hv4 | hv4
      · exact Or.inl hv4
      · exact Or.inr (Or.inl ⟨hsrc.1, List.mem_singleton.mp hv4⟩)
    · exact Or.inl hv

theorem getD_mem : ∀ (l : List Node) (i : Nat), i < l.length → l.getD i default ∈ l := by
  intro l
  induction l with
  | nil => intro i hi; simp at hi
  | cons x t ih =>
    intro i hi
    cases i with
    | zero => exact List.mem_cons_self x t
    | succ j => exact List.mem_cons_of_mem x (ih j (by simpa using hi))

theorem getD_append_nodes :
    ∀ (l : List Node) (x : Node) (i : Nat),
      (l ++ [x]).getD i default =
        if i < l.length then l.getD i default else if i = l.length then x else default := by
  intro l
  induction l with
  | nil =>
    intro x i
    cases i with
    | zero => simp
    | succ j => simp
  | cons y t ih =>
    intro x i
    cases i with
    | zero => simp
    | succ j =>
      have := ih x j
      simp only [List.cons_append, List.getD_cons_succ, List.length_cons, this]
      split_ifs <;> first | rfl | omega

theorem builtAdj_edgeBacked (g : Graph) (hb : BuiltAdj g) : EdgeBacked g := by
  induction hb with
  | base g hadj hedges =>
    intro u v hv
    by_cases hu : u < g.nodes.length
    · rw [nth] at hv
      rw [hadj (g.nodes.getD u default) (getD_mem g.nodes u hu)] at hv
      exact absurd hv (List.not_mem_nil v)
    · rw [nth, List.getD_eq_default _ _ (by omega)] at hv
      exact absurd hv (List.not_mem_nil v)
  | node g n hb hadj ih =>
    intro u v hv
    have hrw : nth (insert_node g n) u = (g.nodes ++ [n]).getD u default := rfl
    rw [hrw, getD_append_nodes] at hv
    split_ifs at hv with h1 h2
    · obtain ⟨e, hge⟩ := ih u v hv
      exact ⟨e, by rw [get_edge_congr g (insert_node g n) u v rfl]; exact hge⟩
    · rw [hadj] at hv
      exact absurd hv (List.not_mem_nil v)
    · exact absurd hv (List.not_mem_nil v)
  | edge g e hb ih =>
    intro u v hv
    rcases mem_adj_insert_edge g e u v hv with hold | ⟨hu, hv2⟩ | ⟨hu, hv2⟩
    · obtain ⟨e2, hge⟩ := ih u v hold
      exact ⟨e2, find?_append_some _ g.edges [e] e2 hge⟩
    · subst hu; subst hv2
      show ∃ e2, (g.edges ++ [e]).find? (fun x => matchesPair x e.src e.dest) = some e2
      cases hfe : g.edges.find? (fun x => matchesPair x e.src e.dest) with
      | some e2 => exact ⟨e2, find?_append_some _ g.edges [e] e2 hfe⟩
      | none =>
        refine ⟨e, ?_⟩
        rw [find?_append_none _ g.edges [e] hfe]
        rw [List.find?_cons_of_pos _ (by simp [matchesPair])]
    · subst hu; subst hv2
      show ∃ e2, (g.edges ++ [e]).find? (fun x => matchesPair x e.dest e.src) = some e2
      cases hfe : g.edges.find? (fun x => matchesPair x e.dest e.src) with
      | some e2 => exact ⟨e2, find?_append_some _ g.edges [e] e2 hfe⟩
      | none =>
        refine ⟨e, ?_⟩
        rw [find?_append_none _ g.edges [e] hfe]
        rw [List.find?_cons_of_pos _ (by simp [matchesPair])]

theorem buildAdj_loadEdgeLine (g : Graph) (hb : BuiltAdj g) (line : Int × Int × Int) :
    BuiltAdj (loadEdgeLine g line) := by
  rw [loadEdgeLine]
  cases h1 : get_node g line.1 with
  | none => exact hb
  | some s =>
    cases h2 : get_node g line.2.1 with
    | none => exact hb
    | some d => exact BuiltAdj.edge g _ hb

theorem buildAdj_load (header : Int × Int) (lines : List (Int × Int × Int)) :
    BuiltAdj (load header lines) := by
  have hfold : ∀ (ls : List (Int × Int × Int)) (g : Graph), BuiltAdj g →
      BuiltAdj (ls.foldl loadEdgeLine g) := by
    intro ls
    induction ls with
    | nil => intro g hb; exact hb
    | cons l rest ih =>
      intro g hb
      exact ih (loadEdgeLine g l) (buildAdj_loadEdgeLine g hb l)
  refine hfold lines _ (BuiltAdj.base _ ?_ ?_)
  · obtain ⟨h1, h2, h3⟩ := create_fold (List.range header.1.toNat)
      { nodes := [], edges := [], tot_nodes := header.1, tot_edges := header.2 }
    intro n hn
    rw [h1] at hn
    simp only [List.nil_append, List.mem_map] at hn
    obtain ⟨i, _, rfl⟩ := hn
    rfl
  · exact (create_fold (List.range header.1.toNat)
      { nodes := [], edges := [], tot_nodes := header.1, tot_edges := header.2 }).2.1

theorem edgeBacked_transport (g g' : Graph) (hedges : g'.edges = g.edges)
    (hadj : ∀ w, (nth g' w).adj = (nth g w).adj) :
    EdgeBacked g → EdgeBacked g' := by
  intro hb u v hv
  rw [hadj u] at hv
  obtain ⟨e, hge⟩ := hb u v hv
  exact ⟨e, by rw [get_edge_congr g g' u v hedges]; exact hge⟩

theorem primVisit_err (u v : Nat) (s : PrimState)
    (h : ∃ e, get_edge s.g u v = some e) : (primVisit u s v).err = s.err := by
  obtain ⟨e, hge⟩ := h
  simp only [primVisit, hge]
  split_ifs <;> rfl

theorem primVisitFold_err (u : Nat) :
    ∀ (L : List Nat) (s : PrimState),
      (∀ v ∈ L, ∃ e, get_edge s.g u v = some e) →
      (L.foldl (primVisit u) s).err = s.err := by
  intro L
  induction L with
  | nil => intro s _; rfl
  | cons v0 L ih =>
    intro s h
    rw [List.foldl_cons]
    have h1 := primVisit_err u v0 s (h v0 (List.mem_cons_self v0 L))
    have h2 := ih (primVisit u s v0) (by
      intro v hv
      obtain ⟨e, hge⟩ := h v (List.mem_cons_of_mem v0 hv)
      refine ⟨e, ?_⟩
      rw [get_edge_congr s.g (primVisit u s v0).g u v (primVisit_fields u v0 s).2.1]
      exact hge)
    exact h2.trans h1

theorem primStep_err_backed (s : PrimState) (hb : EdgeBacked s.g) :
    (primStep s).err = s.err ∧ EdgeBacked (primStep s).g := by
  obtain ⟨g0, pq0, inm, err0, sc0⟩ := s
  cases pq0 with
  | nil => exact ⟨rfl, hb⟩
  | cons u rest =>
    rw [primStep_cons]
    obtain ⟨f1, f2, f3, f4, f5, f6, f7, f8, f9⟩ :=
      primVisitFold_fields u (nth g0 u).adj
        ⟨g0, pqPop g0 (u :: rest), setInsert inm u, err0,
         sc0 + (if u ∈ inm then (nth g0 u).adj.length else 0)⟩
    constructor
    · exact primVisitFold_err u (nth g0 u).adj _ (fun v hv => hb u v hv)
    · exact edgeBacked_transport g0 _ f2 (fun w => (f7 w).1) hb

/-- C6: in a graph whose adjacency lists were populated solely by
`insert_edge`, every `get_edge(u, v)` lookup performed by `prim` — `v` being
an entry of the dequeued node's adjacency list — succeeds, so the null-edge
dereference (the internal-consistency branch, recorded in `err`) is
unreachable in every state `prim` can reach. -/
theorem prim_get_edge_total (g : Graph) (src : Nat) (hb : BuiltAdj g) (k : Nat) :
    (primIter k (primInit g src)).err = false ∧
    ∀ u : Nat, ∀ v ∈ (nth (primIter k (primInit g src)).g u).adj,
      ∃ e, get_edge (primIter k (primInit g src)).g u v = some e := by
  have hbacked : EdgeBacked (primInit g src).g := by
    obtain ⟨e1, e2, e3, e4, e5⟩ := primInit_g g src
    exact edgeBacked_transport g _ e1 (fun w => (e5 w).1) (builtAdj_edgeBacked g hb)
  have main : ∀ (m : Nat) (s : PrimState), s.err = false → EdgeBacked s.g →
      (primIter m s).err = false ∧ EdgeBacked (primIter m s).g := by
    intro m
    induction m with
    | zero => intro s he hba; exact ⟨he, hba⟩
    | succ m2 ih =>
      intro s he hba
      obtain ⟨p1, p2⟩ := primStep_err_backed s hba
      exact ih (primStep s) (p1.trans he) p2
  obtain ⟨r1, r2⟩ := main k (primInit g src) rfl hbacked
  exact ⟨r1, fun u v hv => r2 u v hv⟩

/-- C6 witness: on the loaded fixture, after five iterations from node 2 the
error flag is still clear. -/
theorem prim_get_edge_total_witness : (primIter 5 (primInit cexGraph 2)).err = false :=
  (prim_get_edge_total cexGraph 2
    (buildAdj_load (4, 6) [(0, 2, 1), (0, 3, 2), (0, 1, 1), (1, 3, 1), (2, 3, 3), (1, 2, 3)])
    5).1

/-- C2: on the complete four-node fixture loaded from header `4 6` — six
edges, all endpoint pairs distinct, weights 1..3 — `prim` from node 2 runs to
completion (empty frontier) and leaves predecessors whose edges total weight
4, while the stored edges with indices 0, 2, 3 (`(0,2,1)`, `(0,1,1)`,
`(1,3,1)`) form a spanning tree of weight 3: the result is a spanning tree
but not a minimum one.  The mutable-key `std::priority_queue` is corrupted
when a buried entry's distance decreases, so a non-minimal node is dequeued
and committed early. -/
theorem prim_not_minimal_cex :
    (primIter (primFuel cexGraph) (primInit cexGraph 2)).pq = [] ∧
    (primIter (primFuel cexGraph) (primInit cexGraph 2)).err = false ∧
    (prim cexGraph 2).nodes.map (fun n => (n.distance, n.predecessor)) =
      [(1, some 2), (1, some 0), (0, none), (2, some 0)] ∧
    primTotalWeight (prim cexGraph 2) 2 = 4 ∧
    IsSpanningTree cexGraph [0, 2, 3] ∧
    treeWeight cexGraph [0, 2, 3] = 3 ∧ ¬ (4 : Int) ≤ 3 := by decide

/-! ### Frame lemmas: what `bfs` and `prim` leave untouched -/

theorem primStep_frame (s : PrimState) :
    (primStep s).g.edges = s.g.edges ∧
    (primStep s).g.nodes.length = s.g.nodes.length ∧
    (primStep s).g.tot_nodes = s.g.tot_nodes ∧
    (primStep s).g.tot_edges = s.g.tot_edges ∧
    ∀ w, (nth (primStep s).g w).adj = (nth s.g w).adj ∧
         (nth (primStep s).g w).data = (nth s.g w).data ∧
         (nth (primStep s).g w).color = (nth s.g w).color := by
  obtain ⟨g0, pq0, inm, err0, sc0⟩ := s
  cases pq0 with
  | nil => exact ⟨rfl, rfl, rfl, rfl, fun w => ⟨rfl, rfl, rfl⟩⟩
  | cons u rest =>
    rw [primStep_cons]
    obtain ⟨f1, f2, f3, f4, f5, f6, f7, f8, f9⟩ :=
      primVisitFold_fields u (nth g0 u).adj
        ⟨g0, pqPop g0 (u :: rest), setInsert inm u, err0,
         sc0 + (if u ∈ inm then (nth g0 u).adj.length else 0)⟩
    exact ⟨f2, f3, f4, f5, f7⟩

theorem primIter_frame :
    ∀ (k : Nat) (s : PrimState),
      (primIter k s).g.edges = s.g.edges ∧
      (primIter k s).g.nodes.length = s.g.nodes.length ∧
      (primIter k s).g.tot_nodes = s.g.tot_nodes ∧
      (primIter k s).g.tot_edges = s.g.tot_edges ∧
      ∀ w, (nth (primIter k s).g w).adj = (nth s.g w).adj ∧
           (nth (primIter k s).g w).data = (nth s.g w).data ∧
           (nth (primIter k s).g w).color = (nth s.g w).color := by
  intro k
  induction k with
  | zero => intro s; exact ⟨rfl, rfl, rfl, rfl, fun w => ⟨rfl, rfl, rfl⟩⟩
  | succ m ih =>
    intro s
    obtain ⟨a1, a2, a3, a4, a5⟩ := primStep_frame s
    obtain ⟨b1, b2, b3, b4, b5⟩ := ih (primStep s)
    refine ⟨b1.trans a1, b2.trans a2, b3.trans a3, b4.trans a4, ?_⟩
    intro w
    obtain ⟨c1, c2, c3⟩ := a5 w
    obtain ⟨d1, d2, d3⟩ := b5 w
    exact ⟨d1.trans c1, d2.trans c2, d3.trans c3⟩

theorem prim_frame (g : Graph) (src : Nat) :
    (prim g src).edges = g.edges ∧
    (prim g src).nodes.length = g.nodes.length ∧
    (prim g src).tot_nodes = g.tot_nodes ∧
    (prim g src).tot_edges = g.tot_edges ∧
    ∀ w, (nth (prim g src) w).adj = (nth g w).adj ∧
         (nth (prim g src) w).data = (nth g w).data ∧
         (nth (prim g src) w).color = (nth g w).color := by
  obtain ⟨e1, e2, e3, e4, e5⟩ := primInit_g g src
  obtain ⟨b1, b2, b3, b4, b5⟩ := primIter_frame (primFuel g) (primInit g src)
  refine ⟨b1.trans e1, b2.trans e2, b3.trans e3, b4.trans e4, ?_⟩
  intro w
  obtain ⟨c1, c2, c3⟩ := e5 w
  obtain ⟨d1, d2, d3⟩ := b5 w
  exact ⟨d1.trans c1, d2.trans c2, d3.trans c3⟩

theorem bfsVisit_frame (u : Nat) (acc : Graph × List Nat) (v : Nat) :
    ((bfsVisit u acc v).1.edges = acc.1.edges) ∧
    ((bfsVisit u acc v).1.nodes.length = acc.1.nodes.length) ∧
    ((bfsVisit u acc v).1.tot_nodes = acc.1.tot_nodes) ∧
    ((bfsVisit u acc v).1.tot_edges = acc.1.tot_edges) ∧
    (∀ w, (nth (bfsVisit u acc v).1 w).adj = (nth acc.1 w).adj ∧
          (nth (bfsVisit u acc v).1 w).data = (nth acc.1 w).data) := by
  rw [bfsVisit]
  split_ifs with h
  · refine ⟨rfl, updNode_length _ _ _, rfl, rfl, ?_⟩
    intro w
    show (nth (updNode acc.1 v _) w).adj = _ ∧ (nth (updNode acc.1 v _) w).data = _
    rw [nth_updNode]
    split_ifs with hw
    · rw [hw.1]; exact ⟨rfl, rfl⟩
    · exact ⟨rfl, rfl⟩
  · exact ⟨rfl, rfl, rfl, rfl, fun w => ⟨rfl, rfl⟩⟩

theorem bfsVisitFold_frame (u : Nat) :
    ∀ (L : List Nat) (acc : Graph × List Nat),
      ((L.foldl (bfsVisit u) acc).1.edges = acc.1.edges) ∧
      ((L.foldl (bfsVisit u) acc).1.nodes.length = acc.1.nodes.length) ∧
      ((L.foldl (bfsVisit u) acc).1.tot_nodes = acc.1.tot_nodes) ∧
      ((L.foldl (bfsVisit u) acc).1.tot_edges = acc.1.tot_edges) ∧
      (∀ w, (nth (L.foldl (bfsVisit u) acc).1 w).adj = (nth acc.1 w).adj ∧
            (nth (L.foldl (bfsVisit u) acc).1 w).data = (nth acc.1 w).data) := by
  intro L
  induction L with
  | nil => intro acc; exact ⟨rfl, rfl, rfl, rfl, fun w => ⟨rfl, rfl⟩⟩
  | cons v L ih =>
    intro acc
    obtain ⟨a1, a2, a3, a4, a5⟩ := bfsVisit_frame u acc v
    obtain ⟨b1, b2, b3, b4, b5⟩ := ih (bfsVisit u acc v)
    rw [List.foldl_cons]
    refine ⟨b1.trans a1, b2.trans a2, b3.trans a3, b4.trans a4, ?_⟩
    intro w
    exact ⟨(b5 w).1.trans (a5 w).1, (b5 w).2.trans (a5 w).2⟩

theorem bfsLoop_frame :
    ∀ (fuel : Nat) (g : Graph) (q : List Nat),
      ((bfsLoop fuel g q).edges = g.edges) ∧
      ((bfsLoop fuel g q).nodes.length = g.nodes.length) ∧
      ((bfsLoop fuel g q).tot_nodes = g.tot_nodes) ∧
      ((bfsLoop fuel g q).tot_edges = g.tot_edges) ∧
      (∀ w, (nth (bfsLoop fuel g q) w).adj = (nth g w).adj ∧
            (nth (bfsLoop fuel g q) w).data = (nth g w).data) := by
  intro fuel
  induction fuel with
  | zero => intro g q; exact ⟨rfl, rfl, rfl, rfl, fun w => ⟨rfl, rfl⟩⟩
  | succ m ih =>
    intro g q
    cases q with
    | nil => exact ⟨rfl, rfl, rfl, rfl, fun w => ⟨rfl, rfl⟩⟩
    | cons u rest =>
      show (bfsLoop m (updNode ((nth g u).adj.foldl (bfsVisit u) (g, rest)).1 u _)
              ((nth g u).adj.foldl (bfsVisit u) (g, rest)).2).edges = _ ∧ _
      obtain ⟨a1, a2, a3, a4, a5⟩ := bfsVisitFold_frame u (nth g u).adj (g, rest)
      obtain ⟨b1, b2, b3, b4, b5⟩ := ih
        (updNode ((nth g u).adj.foldl (bfsVisit u) (g, rest)).1 u
          (fun n => { n with color := Color.black }))
        ((nth g u).adj.foldl (bfsVisit u) (g, rest)).2
      refine ⟨b1.trans a1, b2.trans ((updNode_length _ _ _).trans a2), b3.trans a3,
              b4.trans a4, ?_⟩
      intro w
      have hupd : (nth (updNode ((nth g u).adj.foldl (bfsVisit u) (g, rest)).1 u
          (fun n => { n with color := Color.black })) w).adj =
            (nth ((nth g u).adj.foldl (bfsVisit u) (g, rest)).1 w).adj ∧
          (nth (updNode ((nth g u).adj.foldl (bfsVisit u) (g, rest)).1 u
          (fun n => { n with color := Color.black })) w).data =
            (nth ((nth g u).adj.foldl (bfsVisit u) (g, rest)).1 w).data := by
        rw [nth_updNode]
        split_ifs with hw
        · rw [hw.1]; exact ⟨rfl, rfl⟩
        · exact ⟨rfl, rfl⟩
      exact ⟨((b5 w).1.trans hupd.1).trans (a5 w).1, ((b5 w).2.trans hupd.2).trans (a5 w).2⟩

theorem bfs_frame (g : Graph) (src : Nat) :
    (bfs g src).edges = g.edges ∧
    (bfs g src).nodes.length = g.nodes.length ∧
    (bfs g src).tot_nodes = g.tot_nodes ∧
    (bfs g src).tot_edges = g.tot_edges ∧
    ∀ w, (nth (bfs g src) w).adj = (nth g w).adj ∧
         (nth (bfs g src) w).data = (nth g w).data := by
  have hg : bfs g src =
      bfsLoop ((updNode { g with nodes := g.nodes.map (fun n =>
          { n with color := Color.white, predecessor := none, distance := INT_MAX }) } src
          (fun n => { n with distance := 0, color := Color.gray, predecessor := none })).nodes.length + 1)
        (updNode { g with nodes := g.nodes.map (fun n =>
          { n with color := Color.white, predecessor := none, distance := INT_MAX }) } src
          (fun n => { n with distance := 0, color := Color.gray, predecessor := none }))
        [src] := rfl
  obtain ⟨b1, b2, b3, b4, b5⟩ := bfsLoop_frame
    ((updNode { g with nodes := g.nodes.map (fun n =>
        { n with color := Color.white, predecessor := none, distance := INT_MAX }) } src
        (fun n => { n with distance := 0, color := Color.gray, predecessor := none })).nodes.length + 1)
    (updNode { g with nodes := g.nodes.map (fun n =>
        { n with color := Color.white, predecessor := none, distance := INT_MAX }) } src
        (fun n => { n with distance := 0, color := Color.gray, predecessor := none }))
    [src]
  have hinit : ∀ w,
      (nth (updNode { g with nodes := g.nodes.map (fun n =>
        { n with color := Color.white, predecessor := none, distance := INT_MAX }) } src
        (fun n => { n with distance := 0, color := Color.gray, predecessor := none })) w).adj
        = (nth g w).adj ∧
      (nth (updNode { g with nodes := g.nodes.map (fun n =>
        { n with color := Color.white, predecessor := none, distance := INT_MAX }) } src
        (fun n => { n with distance := 0, color := Color.gray, predecessor := none })) w).data
        = (nth g w).data := by
    intro w
    rw [nth_updNode]
    split_ifs with h
    · rw [h.1, nth_mapNodes]
      have hlt : src < g.nodes.length := by
        have := h.2
        simpa using this
      rw [if_pos hlt]
      exact ⟨rfl, rfl⟩
    · rw [nth_mapNodes]
      split_ifs with hw
      · exact ⟨rfl, rfl⟩
      · rw [nth, List.getD_eq_default _ _ (by omega)]
        exact ⟨rfl, rfl⟩
  have hlen : (updNode { g with nodes := g.nodes.map (fun n =>
      { n with color := Color.white, predecessor := none, distance := INT_MAX }) } src
      (fun n => { n with distance := 0, color := Color.gray, predecessor := none })).nodes.length
        = g.nodes.length := by
    rw [updNode_length]
    simp
  rw [hg]
  refine ⟨b1, b2.trans hlen, b3, b4, ?_⟩
  intro w
  exact ⟨(b5 w).1.trans (hinit w).1, (b5 w).2.trans (hinit w).2⟩

/-- C10: `bfs` leaves the node count, every node's id and adjacency list, the
edge store and both counters unchanged; `prim` additionally leaves every
node's color unchanged.  (`is_binary` and `is_complete_binary` are `const`
readers of the same state: their embedding is a pure function `Graph → Bool`
because the C++ bodies write no member — their scratch vector is local — so
'modifies nothing' is captured by the type.) -/
theorem bfs_prim_frame (g : Graph) (src : Nat) :
    ((bfs g src).nodes.length = g.nodes.length ∧
     (bfs g src).edges = g.edges ∧
     (bfs g src).tot_nodes = g.tot_nodes ∧
     (bfs g src).tot_edges = g.tot_edges ∧
     ∀ w, (nth (bfs g src) w).data = (nth g w).data ∧
          (nth (bfs g src) w).adj = (nth g w).adj) ∧
    ((prim g src).nodes.length = g.nodes.length ∧
     (prim g src).edges = g.edges ∧
     (prim g src).tot_nodes = g.tot_nodes ∧
     (prim g src).tot_edges = g.tot_edges ∧
     ∀ w, (nth (prim g src) w).data = (nth g w).data ∧
          (nth (prim g src) w).adj = (nth g w).adj ∧
          (nth (prim g src) w).color = (nth g w).color) := by
  obtain ⟨a1, a2, a3, a4, a5⟩ := bfs_frame g src
  obtain ⟨b1, b2, b3, b4, b5⟩ := prim_frame g src
  exact ⟨⟨a2, a1, a3, a4, fun w => ⟨(a5 w).2, (a5 w).1⟩⟩,
         ⟨b2, b1, b3, b4, fun w => ⟨(b5 w).2.1, (b5 w).1, (b5 w).2.2⟩⟩⟩

/-! ### Idempotence: both algorithms fully reinitialize the state they use -/

theorem graph_ext (a b : Graph) (h1 : a.nodes = b.nodes) (h2 : a.edges = b.edges)
    (h3 : a.tot_nodes = b.tot_nodes) (h4 : a.tot_edges = b.tot_edges) : a = b := by
  cases a
  cases b
  simp_all

theorem getD_eq_get :
    ∀ (l : List Node) (i : Nat) (h : i < l.length), l.getD i default = l.get ⟨i, h⟩ := by
  intro l
  induction l with
  | nil => intro i h; simp at h
  | cons x t ih =>
    intro i h
    cases i with
    | zero => rfl
    | succ j => exact ih j (by simpa using h)

theorem map_congr_data_adj (f : Node → Node)
    (hf : ∀ n n' : Node, n'.data = n.data → n'.adj = n.adj → f n' = f n)
    (l l' : List Node) (hlen : l'.length = l.length)
    (hnd : ∀ i, (l'.getD i default).data = (l.getD i default).data ∧
                (l'.getD i default).adj = (l.getD i default).adj) :
    l'.map f = l.map f := by
  apply List.ext_get
  · simp [hlen]
  · intro n h1 h2
    rw [List.get_map, List.get_map]
    have hn' : n < l'.length := by simpa using h1
    have hn : n < l.length := by simpa using h2
    apply hf
    · rw [← getD_eq_get l' n hn', ← getD_eq_get l n hn]
      exact (hnd n).1
    · rw [← getD_eq_get l' n hn', ← getD_eq_get l n hn]
      exact (hnd n).2

theorem map_congr_data_adj_color (f : Node → Node)
    (hf : ∀ n n' : Node, n'.data = n.data → n'.adj = n.adj → n'.color = n.color → f n' = f n)
    (l l' : List Node) (hlen : l'.length = l.length)
    (hnd : ∀ i, (l'.getD i default).data = (l.getD i default).data ∧
                (l'.getD i default).adj = (l.getD i default).adj ∧
                (l'.getD i default).color = (l.getD i default).color) :
    l'.map f = l.map f := by
  apply List.ext_get
  · simp [hlen]
  · intro n h1 h2
    rw [List.get_map, List.get_map]
    have hn' : n < l'.length := by simpa using h1
    have hn : n < l.length := by simpa using h2
    apply hf
    · rw [← getD_eq_get l' n hn', ← getD_eq_get l n hn]
      exact (hnd n).1
    · rw [← getD_eq_get l' n hn', ← getD_eq_get l n hn]
      exact (hnd n).2.1
    · rw [← getD_eq_get l' n hn', ← getD_eq_get l n hn]
      exact (hnd n).2.2

theorem bfs_congr (g g' : Graph) (src : Nat)
    (hedges : g'.edges = g.edges) (htn : g'.tot_nodes = g.tot_nodes)
    (hte : g'.tot_edges = g.tot_edges) (hlen : g'.nodes.length = g.nodes.length)
    (hnd : ∀ i, (nth g' i).adj = (nth g i).adj ∧ (nth g' i).data = (nth g i).data) :
    bfs g' src = bfs g src := by
  have hmap : g'.nodes.map (fun n =>
      { n with color := Color.white, predecessor := none, distance := INT_MAX }) =
      g.nodes.map (fun n =>
      { n with color := Color.white, predecessor := none, distance := INT_MAX }) := by
    apply map_congr_data_adj
    · intro n n' h1 h2
      cases n
      cases n'
      simp_all
    · exact hlen
    · exact fun i => ⟨(hnd i).2, (hnd i).1⟩
  have hinit : ({ g' with nodes := g'.nodes.map (fun n =>
      { n with color := Color.white, predecessor := none, distance := INT_MAX }) } : Graph) =
      { g with nodes := g.nodes.map (fun n =>
      { n with color := Color.white, predecessor := none, distance := INT_MAX }) } :=
    graph_ext _ _ hmap hedges htn hte
  show bfsLoop _ (updNode { g' with nodes := _ } src _) [src] = bfs g src
  rw [hinit]
  rfl

theorem prim_congr (g g' : Graph) (src : Nat)
    (hedges : g'.edges = g.edges) (htn : g'.tot_nodes = g.tot_nodes)
    (hte : g'.tot_edges = g.tot_edges) (hlen : g'.nodes.length = g.nodes.length)
    (hnd : ∀ i, (nth g' i).adj = (nth g i).adj ∧ (nth g' i).data = (nth g i).data ∧
                (nth g' i).color = (nth g i).color) :
    prim g' src = prim g src := by
  have hmap : g'.nodes.map (fun n =>
      { n with distance := INT_MAX, predecessor := none }) =
      g.nodes.map (fun n =>
      { n with distance := INT_MAX, predecessor := none }) := by
    apply map_congr_data_adj_color
    · intro n n' h1 h2 h3
      cases n
      cases n'
      simp_all
    · exact hlen
    · exact fun i => ⟨(hnd i).2.1, (hnd i).1, (hnd i).2.2⟩
  have hinit : ({ g' with nodes := g'.nodes.map (fun n =>
      { n with distance := INT_MAX, predecessor := none }) } : Graph) =
      { g with nodes := g.nodes.map (fun n =>
      { n with distance := INT_MAX, predecessor := none }) } :=
    graph_ext _ _ hmap hedges htn hte
  have hfuel : primFuel g' = primFuel g := by
    rw [primFuel, primFuel, hlen, hedges]
  show (primIter (primFuel g') (primInit g' src)).g = (primIter (primFuel g) (primInit g src)).g
  rw [hfuel]
  have hinit2 : primInit g' src = primInit g src := by
    show (⟨updNode { g' with nodes := _ } src _,
          pqPush (updNode { g' with nodes := _ } src _) [] src, [], false, 0⟩ : PrimState) = _
    rw [hinit]
    rfl
  rw [hinit2]

/-! ### The BFS loop invariant -/

theorem countP_updN_gen (p : Node → Bool) (f : Node → Node) :
    ∀ (l : List Node) (i : Nat), i < l.length →
      (updN l i f).countP p + (if p (l.getD i default) then 1 else 0) =
        l.countP p + (if p (f (l.getD i default)) then 1 else 0) := by
  intro l
  induction l with
  | nil => intro i hi; simp at hi
  | cons x t ih =>
    intro i hi
    cases i with
    | zero =>
      show (f x :: t).countP p + _ = _
      rw [List.countP_cons, List.countP_cons]
      simp only [List.getD_cons_zero]
      split_ifs <;> omega
    | succ j =>
      have hj : j < t.length := by simpa using hi
      have := ih j hj
      show (x :: updN t j f).countP p + _ = _
      rw [List.countP_cons, List.countP_cons]
      simp only [List.getD_cons_succ]
      split_ifs at this ⊢ <;> omega

theorem countWhite_updNode (g : Graph) (v : Nat) (f : Node → Node)
    (hv : v < g.nodes.length) :
    countWhite (updNode g v f) + (if (nth g v).color = Color.white then 1 else 0) =
      countWhite g + (if (f (nth g v)).color = Color.white then 1 else 0) := by
  have := countP_updN_gen (fun n => n.color == Color.white) f g.nodes v hv
  simp only [beq_iff_eq] at this
  exact this

theorem updNode_oob (g : Graph) (v : Nat) (f : Node → Node)
    (hv : g.nodes.length ≤ v) : updNode g v f = g := by
  apply graph_ext <;> simp [updNode, updN_oob f g.nodes v hv]

theorem bfsScan (u : Nat) :
    ∀ (L : List Nat) (g : Graph) (q : List Nat),
      (nth g u).color ≠ Color.white →
      (∀ v ∈ L, v < g.nodes.length) →
      ∃ new : List Nat,
        ((L.foldl (bfsVisit u) (g, q)).2 = q ++ new) ∧
        new.Nodup ∧
        (∀ v ∈ new, v ∈ L ∧ (nth g v).color = Color.white) ∧
        (∀ v ∈ new,
          (nth (L.foldl (bfsVisit u) (g, q)).1 v).color = Color.gray ∧
          (nth (L.foldl (bfsVisit u) (g, q)).1 v).predecessor = some u ∧
          (nth (L.foldl (bfsVisit u) (g, q)).1 v).distance = (nth g u).distance + 1) ∧
        (∀ w, (nth g w).color ≠ Color.white →
          nth (L.foldl (bfsVisit u) (g, q)).1 w = nth g w) ∧
        (∀ w, (nth g w).color = Color.white → w ∉ new →
          nth (L.foldl (bfsVisit u) (g, q)).1 w = nth g w) ∧
        (∀ v ∈ L, (nth (L.foldl (bfsVisit u) (g, q)).1 v).color ≠ Color.white) ∧
        (countWhite (L.foldl (bfsVisit u) (g, q)).1 + new.length = countWhite g) := by
  intro L
  induction L with
  | nil =>
    intro g q hu hL
    exact ⟨[], by simp, List.nodup_nil, by simp, by simp,
           fun w _ => rfl, fun w _ _ => rfl, by simp, by simp⟩
  | cons v0 L ih =>
    intro g q hu hL
    have hv0 : v0 < g.nodes.length := hL v0 (List.mem_cons_self v0 L)
    by_cases hw : (nth g v0).color = Color.white
    · -- v0 is discovered: grayed, enqueued
      have hstep : bfsVisit u (g, q) v0 =
          (updNode g v0 (fun n =>
              { n with color := Color.gray, predecessor := some u,
                       distance := (nth g u).distance + 1 }),
           q ++ [v0]) := by
        rw [bfsVisit, if_pos hw]
      have huv : u ≠ v0 := fun he => hu (he ▸ hw)
      set g1 := updNode g v0 (fun n =>
        { n with color := Color.gray, predecessor := some u,
                 distance := (nth g u).distance + 1 }) with hg1
      have hg1v0 : nth g1 v0 =
          { nth g v0 with color := Color.gray, predecessor := some u,
                          distance := (nth g u).distance + 1 } :=
        nth_updNode_self g v0 _ hv0
      have hg1other : ∀ w, w ≠ v0 → nth g1 w = nth g w := fun w hwne =>
        nth_updNode_other g v0 w _ hwne
      have hg1u : nth g1 u = nth g u := hg1other u huv
      have hg1len : g1.nodes.length = g.nodes.length := updNode_length g v0 _
      obtain ⟨new2, p1, p2, p3, p4, p5, p6, p7, p8⟩ := ih g1 (q ++ [v0])
        (by rw [hg1u]; exact hu)
        (by intro v hv; rw [hg1len]; exact hL v (List.mem_cons_of_mem v0 hv))
      have hfold : (v0 :: L).foldl (bfsVisit u) (g, q) = L.foldl (bfsVisit u) (g1, q ++ [v0]) := by
        rw [List.foldl_cons, hstep]
      refine ⟨v0 :: new2, ?_, ?_, ?_, ?_, ?_, ?_, ?_, ?_⟩
      · rw [hfold, p1]
        simp
      · refine List.nodup_cons.mpr ⟨?_, p2⟩
        intro hmem
        have := (p3 v0 hmem).2
        rw [hg1v0] at this
        exact absurd this (by simp)
      · intro v hv
        rcases List.mem_cons.mp hv with rfl | hv2
        · exact ⟨List.mem_cons_self v L, hw⟩
        · obtain ⟨hvL, hvwhite⟩ := p3 v hv2
          have hvne : v ≠ v0 := by
            intro he
            rw [he, hg1v0] at hvwhite
            exact absurd hvwhite (by simp)
          rw [hg1other v hvne] at hvwhite
          exact ⟨List.mem_cons_of_mem v0 hvL, hvwhite⟩
      · intro v hv
        rcases List.mem_cons.mp hv with rfl | hv2
        · have hnw : (nth g1 v).color ≠ Color.white := by
            rw [hg1v0]; simp
          have := p5 v hnw
          rw [hfold, this, hg1v0]
          exact ⟨rfl, rfl, rfl⟩
        · have := p4 v hv2
          rw [hfold]
          rw [hg1u] at this
          exact this
      · intro w hwne
        have hwnv0 : w ≠ v0 := fun he => hwne (he ▸ hw)
        have : (nth g1 w).color ≠ Color.white := by rw [hg1other w hwnv0]; exact hwne
        rw [hfold, p5 w this, hg1other w hwnv0]
      · intro w hwwhite hwnot
        have hwnv0 : w ≠ v0 := fun he => hwnot (he ▸ List.mem_cons_self v0 new2)
        have hw1 : (nth g1 w).color = Color.white := by
          rw [hg1other w hwnv0]; exact hwwhite
        have hwnot2 : w ∉ new2 := fun hmem => hwnot (List.mem_cons_of_mem v0 hmem)
        rw [hfold, p6 w hw1 hwnot2, hg1other w hwnv0]
      · intro v hv
        rcases List.mem_cons.mp hv with rfl | hv2
        · have hnw : (nth g1 v).color ≠ Color.white := by
            rw [hg1v0]; simp
          have := p5 v hnw
          rw [hfold, this, hg1v0]
          simp
        · rw [hfold]
          exact p7 v hv2
      · have hcount : countWhite g1 + 1 = countWhite g := by
          have := countWhite_updNode g v0 (fun n =>
            { n with color := Color.gray, predecessor := some u,
                     distance := (nth g u).distance + 1 }) hv0
          rw [if_pos hw, if_neg (by simp)] at this
          rw [← hg1] at this
          omega
        rw [hfold]
        have hp8 : countWhite (L.foldl (bfsVisit u) (g1, q ++ [v0])).1 + new2.length
            = countWhite g1 := p8
        show countWhite (L.foldl (bfsVisit u) (g1, q ++ [v0])).1 + (v0 :: new2).length
            = countWhite g
        simp only [List.length_cons]
        omega
    · -- v0 already discovered: skipped
      have hstep : bfsVisit u (g, q) v0 = (g, q) := by
        rw [bfsVisit, if_neg hw]
      have hfold : (v0 :: L).foldl (bfsVisit u) (g, q) = L.foldl (bfsVisit u) (g, q) := by
        rw [List.foldl_cons, hstep]
      obtain ⟨new2, p1, p2, p3, p4, p5, p6, p7, p8⟩ := ih g q hu
        (fun v hv => hL v (List.mem_cons_of_mem v0 hv))
      refine ⟨new2, ?_, p2, ?_, ?_, ?_, ?_, ?_, ?_⟩
      · rw [hfold]; exact p1
      · intro v hv
        obtain ⟨hvL, hvw⟩ := p3 v hv
        exact ⟨List.mem_cons_of_mem v0 hvL, hvw⟩
      · intro v hv; rw [hfold]; exact p4 v hv
      · intro w hwne; rw [hfold]; exact p5 w hwne
      · intro w hww hwn; rw [hfold]; exact p6 w hww hwn
      · intro v hv
        rcases List.mem_cons.mp hv with rfl | hv2
        · rw [hfold, p5 v hw]
          exact hw
        · rw [hfold]; exact p7 v hv2
      · rw [hfold]; exact p8

theorem pairwise_of_total_mem {R : Nat → Nat → Prop} :
    ∀ l : List Nat, (∀ a ∈ l, ∀ b ∈ l, R a b) → l.Pairwise R := by
  intro l
  induction l with
  | nil => intro _; exact List.Pairwise.nil
  | cons x t ih =>
    intro h
    exact List.Pairwise.cons
      (fun b hb => h x (List.mem_cons_self x t) b (List.mem_cons_of_mem x hb))
      (ih (fun a ha b hb => h a (List.mem_cons_of_mem x ha) b (List.mem_cons_of_mem x hb)))

theorem bfsStep_inv (g : Graph) (src u : Nat) (rest : List Nat)
    (inv : BfsInv g src (u :: rest)) :
    BfsInv (updNode ((nth g u).adj.foldl (bfsVisit u) (g, rest)).1 u
        (fun n => { n with color := Color.black }))
      src ((nth g u).adj.foldl (bfsVisit u) (g, rest)).2 ∧
    ((nth g u).adj.foldl (bfsVisit u) (g, rest)).2.length +
      countWhite (updNode ((nth g u).adj.foldl (bfsVisit u) (g, rest)).1 u
        (fun n => { n with color := Color.black })) + 1 =
      (u :: rest).length + countWhite g := by
  have hu_in : u ∈ u :: rest := List.mem_cons_self u rest
  have hulen : u < g.nodes.length := inv.qlt u hu_in
  have hugray : (nth g u).color = Color.gray := inv.qgray u hu_in
  have hunw : (nth g u).color ≠ Color.white := by rw [hugray]; simp
  obtain ⟨new, s1, s2, s3, s4, s5, s6, s7, s8⟩ :=
    bfsScan u (nth g u).adj g rest hunw (fun v hv => inv.wf u v hv)
  set gF := ((nth g u).adj.foldl (bfsVisit u) (g, rest)).1 with hgF
  set gB := updNode gF u (fun n => { n with color := Color.black }) with hgB
  have hlenF : gF.nodes.length = g.nodes.length :=
    (bfsVisitFold_frame u (nth g u).adj (g, rest)).2.1
  have hadjF : ∀ w, (nth gF w).adj = (nth g w).adj := by
    intro w
    exact ((bfsVisitFold_frame u (nth g u).adj (g, rest)).2.2.2.2 w).1
  have hlenB : gB.nodes.length = g.nodes.length := by
    rw [hgB, updNode_length, hlenF]
  have hFu : nth gF u = nth g u := s5 u hunw
  have hBu : nth gB u = { nth g u with color := Color.black } := by
    rw [hgB, nth_updNode_self gF u _ (hlenF ▸ hulen), hFu]
  have hBother : ∀ w, w ≠ u → nth gB w = nth gF w := by
    intro w hwne
    rw [hgB, nth_updNode_other gF u w _ hwne]
  have hadjB : ∀ w, (nth gB w).adj = (nth g w).adj := by
    intro w
    by_cases hwu : w = u
    · rw [hwu, hBu]
    · rw [hBother w hwu]; exact hadjF w
  have hu_not_new : u ∉ new := fun h => by
    have := (s3 u h).2
    rw [hugray] at this
    exact absurd this (by simp)
  have hu_not_rest : u ∉ rest := (List.nodup_cons.mp inv.qnodup).1
  have hrest_nodup : rest.Nodup := (List.nodup_cons.mp inv.qnodup).2
  have hnew_ne_u : ∀ v ∈ new, v ≠ u := fun v hv he => hu_not_new (he ▸ hv)
  have hBnew : ∀ v ∈ new, (nth gB v).color = Color.gray ∧
      (nth gB v).predecessor = some u ∧
      (nth gB v).distance = (nth g u).distance + 1 := by
    intro v hv
    rw [hBother v (hnew_ne_u v hv)]
    exact s4 v hv
  have hBnonwhite : ∀ w, w ≠ u → (nth g w).color ≠ Color.white → nth gB w = nth g w := by
    intro w hwu hnw
    rw [hBother w hwu, s5 w hnw]
  have hBwhite : ∀ w, (nth g w).color = Color.white → w ∉ new → nth gB w = nth g w := by
    intro w hww hwn
    have hwu : w ≠ u := fun he => hunw (he ▸ hww)
    rw [hBother w hwu, s6 w hww hwn]
  have hrest_vals : ∀ v ∈ rest, nth gB v = nth g v := by
    intro v hv
    have hvg : (nth g v).color = Color.gray := inv.qgray v (List.mem_cons_of_mem u hv)
    have hvnw : (nth g v).color ≠ Color.white := by rw [hvg]; simp
    have hvu : v ≠ u := fun he => hu_not_rest (he ▸ hv)
    exact hBnonwhite v hvu hvnw
  have hcases : ∀ v, (nth gB v).color ≠ Color.white →
      v = u ∨ v ∈ new ∨ (nth g v).color ≠ Color.white := by
    intro v hnv
    by_cases hvu : v = u
    · exact Or.inl hvu
    · by_cases hvn : v ∈ new
      · exact Or.inr (Or.inl hvn)
      · refine Or.inr (Or.inr ?_)
        intro hww
        exact hnv ((hBwhite v hww hvn) ▸ hww)
  have hdu_nonneg : 0 ≤ (nth g u).distance := inv.nonneg u hulen hunw
  have hwindow_old : ∀ v ∈ u :: rest, (nth g v).distance ≤ (nth g u).distance + 1 :=
    inv.window u rest rfl
  have hlevel_old : ∀ v, v < g.nodes.length → (nth g v).color ≠ Color.white →
      (nth g v).distance ≤ (nth g u).distance + 1 :=
    inv.level u rest rfl
  have hsorted_old : ∀ b ∈ rest, (nth g u).distance ≤ (nth g b).distance :=
    (List.pairwise_cons.mp inv.sorted).1
  have hq2 : ((nth g u).adj.foldl (bfsVisit u) (g, rest)).2 = rest ++ new := s1
  rw [hq2]
  constructor
  · refine ⟨?_, ?_, ?_, ?_, ?_, ?_, ?_, ?_, ?_, ?_, ?_, ?_, ?_, ?_⟩
    · -- wf
      intro w v hv
      rw [hadjB w] at hv
      rw [hlenB]
      exact inv.wf w v hv
    · rw [hlenB]; exact inv.hsrc
    · -- qlt
      intro v hv
      rw [hlenB]
      rcases List.mem_append.mp hv with hv2 | hv2
      · exact inv.qlt v (List.mem_cons_of_mem u hv2)
      · exact inv.wf u v (s3 v hv2).1
    · -- qgray
      intro v hv
      rcases List.mem_append.mp hv with hv2 | hv2
      · rw [hrest_vals v hv2]
        exact inv.qgray v (List.mem_cons_of_mem u hv2)
      · exact (hBnew v hv2).1
    · -- grayq
      intro v hvlen hvg
      rw [hlenB] at hvlen
      by_cases hvu : v = u
      · subst hvu
        rw [hBu] at hvg
        simp at hvg
      · by_cases hvn : v ∈ new
        · exact List.mem_append.mpr (Or.inr hvn)
        · have hveq : nth gB v = nth g v := by
            by_cases hnw : (nth g v).color = Color.white
            · exact hBwhite v hnw hvn
            · exact hBnonwhite v hvu hnw
          rw [hveq] at hvg
          have hmem := inv.grayq v hvlen hvg
          rcases List.mem_cons.mp hmem with heq | hvr
          · exact absurd heq hvu
          · exact List.mem_append.mpr (Or.inl hvr)
    · -- nodup
      refine List.Nodup.append hrest_nodup s2 ?_
      intro a ha hb
      have h1 : (nth g a).color = Color.gray := inv.qgray a (List.mem_cons_of_mem u ha)
      have h2 : (nth g a).color = Color.white := (s3 a hb).2
      rw [h1] at h2
      exact absurd h2 (by simp)
    · -- srcok
      obtain ⟨so1, so2, so3⟩ := inv.srcok
      by_cases hsu : src = u
      · subst hsu
        rw [hBu]
        exact ⟨by simp, so2, so3⟩
      · rw [hBnonwhite src hsu so1]
        exact ⟨so1, so2, so3⟩
    · -- nonneg
      intro v hvlen hvnw
      rw [hlenB] at hvlen
      rcases hcases v hvnw with rfl | hvn | hnw
      · rw [hBu]
        exact hdu_nonneg
      · rw [(hBnew v hvn).2.2]
        omega
      · by_cases hvu : v = u
        · rw [hvu, hBu]
          exact hdu_nonneg
        · rw [hBnonwhite v hvu hnw]
          exact inv.nonneg v hvlen hnw
    · -- tree
      intro v hvlen hvnw hvsrc
      rw [hlenB] at hvlen
      by_cases hvn : v ∈ new
      · -- newly discovered node
        obtain ⟨b1, b2, b3⟩ := hBnew v hvn
        refine ⟨u, b2, by rw [hlenB]; exact hulen, ?_, ?_, ?_⟩
        · rw [hBu]; simp
        · rw [hadjB u]; exact (s3 v hvn).1
        · rw [b3, hBu]
      · -- a node that was nonwhite before the step (possibly u itself)
        have hnw : (nth g v).color ≠ Color.white := by
          rcases hcases v hvnw with heq | hvn2 | hnw2
          · rw [heq]; exact hunw
          · exact absurd hvn2 hvn
          · exact hnw2
        obtain ⟨u2, t1, t2, t3, t4, t5⟩ := inv.tree v hvlen hnw hvsrc
        have hveq : (nth gB v).predecessor = (nth g v).predecessor ∧
            (nth gB v).distance = (nth g v).distance := by
          by_cases hvu : v = u
          · subst hvu; rw [hBu]; exact ⟨rfl, rfl⟩
          · rw [hBnonwhite v hvu hnw]; exact ⟨rfl, rfl⟩
        have hu2eq : ((nth gB u2).color ≠ Color.white) ∧
            (nth gB u2).distance = (nth g u2).distance := by
          by_cases hu2u : u2 = u
          · subst hu2u; rw [hBu]; exact ⟨by simp, rfl⟩
          · rw [hBnonwhite u2 hu2u t3]; exact ⟨t3, rfl⟩
        refine ⟨u2, ?_, by rw [hlenB]; exact t2, hu2eq.1, ?_, ?_⟩
        · rw [hveq.1]; exact t1
        · rw [hadjB u2]; exact t4
        · rw [hveq.2, hu2eq.2]; exact t5
    · -- white
      intro v hvlen hvw
      rw [hlenB] at hvlen
      have hvu : v ≠ u := by
        intro he
        rw [he, hBu] at hvw
        exact absurd hvw (by simp)
      have hvnew : v ∉ new := by
        intro hmem
        rw [(hBnew v hmem).1] at hvw
        exact absurd hvw (by simp)
      have hgw : (nth g v).color = Color.white := by
        by_contra hnw
        rw [hBnonwhite v hvu hnw] at hvw
        exact hnw (by rw [hvw])
      rw [hBwhite v hgw hvnew]
      exact inv.white v hvlen hgw
    · -- blackE
      intro u2 hu2len hu2black v hv
      rw [hlenB] at hu2len
      rw [hadjB u2] at hv
      have hvlen : v < g.nodes.length := inv.wf u2 v hv
      by_cases hu2u : u2 = u
      · subst hu2u
        have hvF : (nth gF v).color ≠ Color.white := s7 v hv
        have hdB2 : (nth gB u2).distance = (nth g u2).distance := by rw [hBu]
        constructor
        · by_cases hvu : v = u2
          · rw [hvu, hBu]; simp
          · rw [hBother v hvu]; exact hvF
        · by_cases hvu : v = u2
          · rw [hvu, hdB2]
            omega
          · rcases hcases v (by rw [hBother v hvu]; exact hvF) with rfl | hvn | hnw
            · exact absurd rfl hvu
            · rw [(hBnew v hvn).2.2, hdB2]
            · rw [hBnonwhite v hvu hnw, hdB2]
              exact hlevel_old v hvlen hnw
      · have hu2g : nth gB u2 = nth g u2 := by
          rcases hcases u2 (by rw [hu2black]; simp) with rfl | hvn | hnw
          · exact absurd rfl hu2u
          · rw [(hBnew u2 hvn).1] at hu2black
            exact absurd hu2black (by simp)
          · exact hBnonwhite u2 hu2u hnw
        rw [hu2g] at hu2black
        obtain ⟨e1, e2⟩ := inv.blackE u2 hu2len hu2black v hv
        constructor
        · by_cases hvu : v = u
          · rw [hvu, hBu]; simp
          · rw [hBnonwhite v hvu e1]; exact e1
        · have hdv : (nth gB v).distance = (nth g v).distance := by
            by_cases hvu : v = u
            · rw [hvu, hBu]
            · rw [hBnonwhite v hvu e1]
          rw [hdv, hu2g]
          exact e2
    · -- sorted
      rw [List.pairwise_append]
      refine ⟨?_, ?_, ?_⟩
      · refine List.Pairwise.imp_of_mem ?_ ((List.pairwise_cons.mp inv.sorted).2)
        intro a b ha hb hab
        rw [hrest_vals a ha, hrest_vals b hb]
        exact hab
      · refine pairwise_of_total_mem new ?_
        intro a ha b hb
        rw [(hBnew a ha).2.2, (hBnew b hb).2.2]
      · intro a ha b hb
        rw [hrest_vals a ha, (hBnew b hb).2.2]
        exact hwindow_old a (List.mem_cons_of_mem u ha)
    · -- window
      intro h t heq v hv
      have hhK : (nth g u).distance ≤ (nth gB h).distance := by
        cases rest with
        | nil =>
          have hhnew : h ∈ new := by
            rw [List.nil_append] at heq
            rw [heq]
            exact List.mem_cons_self h t
          rw [(hBnew h hhnew).2.2]
          omega
        | cons r0 rs =>
          have hh0 : h = r0 := by
            rw [List.cons_append] at heq
            exact (((List.cons.injEq r0 (rs ++ new) h t).mp heq).1).symm
          rw [hh0, hrest_vals r0 (List.mem_cons_self r0 rs)]
          exact hsorted_old r0 (List.mem_cons_self r0 rs)
      rcases List.mem_append.mp hv with hv2 | hv2
      · rw [hrest_vals v hv2]
        have := hwindow_old v (List.mem_cons_of_mem u hv2)
        omega
      · rw [(hBnew v hv2).2.2]
        omega
    · -- level
      intro h t heq v hvlen hvnw
      rw [hlenB] at hvlen
      have hhK : (nth g u).distance ≤ (nth gB h).distance := by
        cases rest with
        | nil =>
          have hhnew : h ∈ new := by
            rw [List.nil_append] at heq
            rw [heq]
            exact List.mem_cons_self h t
          rw [(hBnew h hhnew).2.2]
          omega
        | cons r0 rs =>
          have hh0 : h = r0 := by
            rw [List.cons_append] at heq
            exact (((List.cons.injEq r0 (rs ++ new) h t).mp heq).1).symm
          rw [hh0, hrest_vals r0 (List.mem_cons_self r0 rs)]
          exact hsorted_old r0 (List.mem_cons_self r0 rs)
      rcases hcases v hvnw with rfl | hvn | hnw
      · rw [hBu]
        show (nth g v).distance ≤ _
        omega
      · rw [(hBnew v hvn).2.2]
        omega
      · by_cases hvu : v = u
        · rw [hvu, hBu]
          show (nth g u).distance ≤ _
          omega
        · rw [hBnonwhite v hvu hnw]
          have := hlevel_old v hvlen hnw
          omega
  · -- the measure drops by exactly one
    have hcB : countWhite gB = countWhite gF := by
      have := countWhite_updNode gF u (fun n => { n with color := Color.black })
        (hlenF ▸ hulen)
      rw [if_neg (by rw [hFu, hugray]; simp), if_neg (by simp)] at this
      rw [hgB]
      omega
    rw [List.length_append, hcB]
    have : countWhite gF + new.length = countWhite g := s8
    simp only [List.length_cons]
    omega

theorem bfsLoop_inv :
    ∀ (fuel : Nat) (g : Graph) (q : List Nat) (src : Nat),
      BfsInv g src q → q.length + countWhite g ≤ fuel →
      BfsInv (bfsLoop fuel g q) src [] := by
  intro fuel
  induction fuel with
  | zero =>
    intro g q src inv hm
    have hq : q = [] := by
      cases q with
      | nil => rfl
      | cons a t => simp at hm
    subst hq
    exact inv
  | succ m ih =>
    intro g q src inv hm
    cases q with
    | nil => exact inv
    | cons u rest =>
      obtain ⟨inv2, hmeas⟩ := bfsStep_inv g src u rest inv
      show BfsInv (bfsLoop m (updNode ((nth g u).adj.foldl (bfsVisit u) (g, rest)).1 u
        (fun n => { n with color := Color.black }))
        ((nth g u).adj.foldl (bfsVisit u) (g, rest)).2) src []
      apply ih _ _ src inv2
      simp only [List.length_cons] at hmeas hm
      omega

theorem bfs_final_inv (g : Graph) (src : Nat)
    (hsrc : src < g.nodes.length) (hwf : WfAdj g) :
    BfsInv (bfs g src) src [] := by
  set g2 := updNode { g with nodes := g.nodes.map (fun n =>
      { n with color := Color.white, predecessor := none, distance := INT_MAX }) } src
      (fun n => { n with distance := 0, color := Color.gray, predecessor := none }) with hg2
  have hbfs : bfs g src = bfsLoop (g2.nodes.length + 1) g2 [src] := rfl
  have hlen2 : g2.nodes.length = g.nodes.length := by
    rw [hg2, updNode_length]
    simp
  have hmap : ∀ w, nth { g with nodes := g.nodes.map (fun n =>
      { n with color := Color.white, predecessor := none, distance := INT_MAX }) } w =
      if w < g.nodes.length
      then { nth g w with color := Color.white, predecessor := none, distance := INT_MAX }
      else default := fun w => nth_mapNodes g _ w
  have hg2src : nth g2 src =
      { nth g src with color := Color.gray, predecessor := none, distance := 0 } := by
    rw [hg2, nth_updNode_self _ src _ (by simpa using hsrc), hmap, if_pos hsrc]
  have hg2other : ∀ w, w ≠ src → w < g.nodes.length →
      nth g2 w =
        { nth g w with color := Color.white, predecessor := none, distance := INT_MAX } := by
    intro w hws hwl
    rw [hg2, nth_updNode_other _ src w _ hws, hmap, if_pos hwl]
  have hadj2 : ∀ w, (nth g2 w).adj = (nth g w).adj := by
    intro w
    by_cases hws : w = src
    · rw [hws, hg2src]
    · by_cases hwl : w < g.nodes.length
      · rw [hg2other w hws hwl]
      · rw [hg2, nth_updNode_other _ src w _ hws, hmap, if_neg hwl]
        rw [nth, List.getD_eq_default _ _ (by omega)]
  have inv0 : BfsInv g2 src [src] := by
    refine ⟨?_, ?_, ?_, ?_, ?_, ?_, ?_, ?_, ?_, ?_, ?_, ?_, ?_, ?_⟩
    · intro u v hv
      rw [hadj2 u] at hv
      rw [hlen2]
      exact hwf u v hv
    · rw [hlen2]; exact hsrc
    · intro v hv
      rw [List.mem_singleton.mp hv, hlen2]
      exact hsrc
    · intro v hv
      rw [List.mem_singleton.mp hv, hg2src]
    · intro v hvl hvg
      rw [hlen2] at hvl
      by_cases hvs : v = src
      · rw [hvs]; exact List.mem_singleton.mpr rfl
      · rw [hg2other v hvs hvl] at hvg
        exact absurd hvg (by simp)
    · exact List.nodup_singleton src
    · rw [hg2src]
      exact ⟨by simp, rfl, rfl⟩
    · intro v hvl hvnw
      rw [hlen2] at hvl
      by_cases hvs : v = src
      · rw [hvs, hg2src]
      · rw [hg2other v hvs hvl] at hvnw
        exact absurd rfl hvnw
    · intro v hvl hvnw hvs
      rw [hlen2] at hvl
      rw [hg2other v hvs hvl] at hvnw
      exact absurd rfl hvnw
    · intro v hvl hvw
      rw [hlen2] at hvl
      by_cases hvs : v = src
      · rw [hvs, hg2src] at hvw
        exact absurd hvw (by simp)
      · rw [hg2other v hvs hvl]
        exact ⟨rfl, rfl⟩
    · intro u hul hub
      rw [hlen2] at hul
      by_cases hus : u = src
      · rw [hus, hg2src] at hub
        exact absurd hub (by simp)
      · rw [hg2other u hus hul] at hub
        exact absurd hub (by simp)
    · exact List.pairwise_singleton _ src
    · intro h t heq v hv
      have hh : h = src := ((List.cons.injEq src [] h t).mp heq).1.symm
      rw [hh, List.mem_singleton.mp hv]
      omega
    · intro h t heq v hvl hvnw
      rw [hlen2] at hvl
      have hh : h = src := ((List.cons.injEq src [] h t).mp heq).1.symm
      by_cases hvs : v = src
      · rw [hvs, hh]
        omega
      · rw [hg2other v hvs hvl] at hvnw
        exact absurd rfl hvnw
  rw [hbfs]
  apply bfsLoop_inv (g2.nodes.length + 1) g2 [src] src inv0
  have : countWhite g2 ≤ g2.nodes.length := List.countP_le_length _
  simp only [List.length_singleton]
  omega

theorem reaches_congr (g g' : Graph) (src : Nat)
    (hadj : ∀ w, (nth g' w).adj = (nth g w).adj) :
    ∀ v k, Reaches g src v k → Reaches g' src v k := by
  intro v k h
  induction h with
  | refl => exact Reaches.refl
  | step h1 h2 ih => exact Reaches.step ih (by rw [hadj]; exact h2)

theorem bfsInv_final_black (gf : Graph) (src : Nat) (inv : BfsInv gf src []) :
    ∀ v, v < gf.nodes.length → (nth gf v).color ≠ Color.white →
      (nth gf v).color = Color.black := by
  intro v hv hnw
  cases hc : (nth gf v).color with
  | white => exact absurd hc hnw
  | gray => exact absurd (inv.grayq v hv hc) (List.not_mem_nil v)
  | black => rfl

theorem bfsInv_reach_bound (gf : Graph) (src : Nat) (inv : BfsInv gf src []) :
    ∀ v k, Reaches gf src v k → v < gf.nodes.length ∧
      (nth gf v).color ≠ Color.white ∧ (nth gf v).distance ≤ (k : Int) := by
  intro v k h
  induction h with
  | refl => exact ⟨inv.hsrc, inv.srcok.1, by rw [inv.srcok.2.1]; exact Int.ofNat_nonneg 0⟩
  | @step u k2 v2 h1 h2 ih =>
    obtain ⟨ul, unw, ub⟩ := ih
    have hb := bfsInv_final_black gf src inv u ul unw
    obtain ⟨e1, e2⟩ := inv.blackE u ul hb v2 h2
    refine ⟨inv.wf u v2 h2, e1, ?_⟩
    push_cast
    omega

theorem bfsInv_reach_exact (gf : Graph) (src : Nat) (inv : BfsInv gf src []) :
    ∀ (m : Nat) (v : Nat), v < gf.nodes.length → (nth gf v).color ≠ Color.white →
      (nth gf v).distance = (m : Int) → Reaches gf src v m := by
  intro m
  induction m using Nat.strong_induction_on with
  | _ m ih =>
    intro v hv hnw hd
    by_cases hvs : v = src
    · subst hvs
      have h0 : (nth gf v).distance = 0 := inv.srcok.2.1
      have hm0 : m = 0 := by omega
      subst hm0
      exact Reaches.refl
    · obtain ⟨u, t1, t2, t3, t4, t5⟩ := inv.tree v hv hnw hvs
      have hu0 : 0 ≤ (nth gf u).distance := inv.nonneg u t2 t3
      have hm1 : 1 ≤ m := by omega
      have hdu : (nth gf u).distance = ((m - 1 : Nat) : Int) := by omega
      have hr := ih (m - 1) (by omega) u t2 t3 hdu
      have hr2 : Reaches gf src v (m - 1 + 1) := Reaches.step hr t4
      rw [Nat.sub_add_cancel hm1] at hr2
      exact hr2

/-- C1: after `bfs(src)` on a graph whose adjacency references stay inside
the store, every node reachable from `src` is black and its distance is the
exact shortest hop-count: it is realized by some adjacency walk and is a
lower bound on the length of every walk from `src` to it.  The predecessor
pointers form a shortest-path tree: the source has none, and every other
reachable node's predecessor is a neighbor one hop closer.  Unreachable nodes
keep the white color, the `INT_MAX` sentinel and no predecessor. -/
theorem bfs_correct (g : Graph) (src : Nat)
    (hsrc : src < g.nodes.length) (hwf : WfAdj g) :
    (∀ v, v < g.nodes.length → Reachable g src v →
      0 ≤ (nth (bfs g src) v).distance ∧
      (nth (bfs g src) v).color = Color.black ∧
      Reaches g src v (nth (bfs g src) v).distance.toNat ∧
      (∀ k, Reaches g src v k → (nth (bfs g src) v).distance ≤ (k : Int))) ∧
    ((nth (bfs g src) src).predecessor = none ∧ (nth (bfs g src) src).distance = 0) ∧
    (∀ v, v < g.nodes.length → Reachable g src v → v ≠ src →
      ∃ u, (nth (bfs g src) v).predecessor = some u ∧ u < g.nodes.length ∧
        v ∈ (nth g u).adj ∧
        (nth (bfs g src) v).distance = (nth (bfs g src) u).distance + 1) ∧
    (∀ v, v < g.nodes.length → ¬ Reachable g src v →
      (nth (bfs g src) v).color = Color.white ∧
      (nth (bfs g src) v).distance = INT_MAX ∧
      (nth (bfs g src) v).predecessor = none) := by
  have inv := bfs_final_inv g src hsrc hwf
  have hframe := bfs_frame g src
  have hlen : (bfs g src).nodes.length = g.nodes.length := hframe.2.1
  have hadj : ∀ w, (nth (bfs g src) w).adj = (nth g w).adj := fun w => (hframe.2.2.2.2 w).1
  have hto : ∀ v k, Reaches g src v k → Reaches (bfs g src) src v k :=
    reaches_congr g (bfs g src) src hadj
  have hback : ∀ v k, Reaches (bfs g src) src v k → Reaches g src v k :=
    reaches_congr (bfs g src) g src (fun w => (hadj w).symm)
  refine ⟨?_, ⟨inv.srcok.2.2, inv.srcok.2.1⟩, ?_, ?_⟩
  · intro v hvl hreach
    obtain ⟨k, hk⟩ := hreach
    obtain ⟨vl2, vnw, vb⟩ := bfsInv_reach_bound _ src inv v k (hto v k hk)
    have h0 : 0 ≤ (nth (bfs g src) v).distance := inv.nonneg v vl2 vnw
    have hexact : (nth (bfs g src) v).distance =
        ((nth (bfs g src) v).distance.toNat : Int) := (Int.toNat_of_nonneg h0).symm
    refine ⟨h0, bfsInv_final_black _ src inv v vl2 vnw, ?_, ?_⟩
    · exact hback v _ (bfsInv_reach_exact _ src inv _ v vl2 vnw hexact)
    · intro k2 hk2
      exact (bfsInv_reach_bound _ src inv v k2 (hto v k2 hk2)).2.2
  · intro v hvl hreach hvs
    obtain ⟨k, hk⟩ := hreach
    obtain ⟨vl2, vnw, vb⟩ := bfsInv_reach_bound _ src inv v k (hto v k hk)
    obtain ⟨u, t1, t2, t3, t4, t5⟩ := inv.tree v vl2 vnw hvs
    exact ⟨u, t1, by rw [← hlen]; exact t2, by rw [← hadj u]; exact t4, t5⟩
  · intro v hvl hunreach
    have hwhite : (nth (bfs g src) v).color = Color.white := by
      by_contra hnw
      have h0 : 0 ≤ (nth (bfs g src) v).distance :=
        inv.nonneg v (by rw [hlen]; exact hvl) hnw
      have hexact : (nth (bfs g src) v).distance =
          ((nth (bfs g src) v).distance.toNat : Int) := (Int.toNat_of_nonneg h0).symm
      have := bfsInv_reach_exact _ src inv _ v (by rw [hlen]; exact hvl) hnw hexact
      exact hunreach ⟨_, hback v _ this⟩
    obtain ⟨w1, w2⟩ := inv.white v (by rw [hlen]; exact hvl) hwhite
    exact ⟨hwhite, w1, w2⟩

/-- C1 witness: on the path fixture `0 - 1 - 2 - 3`, node 3 is reachable from
node 0, so after the traversal it is black with distance at most 3. -/
theorem bfs_correct_witness :
    (nth (bfs pathGraph 0) 3).color = Color.black ∧
    (nth (bfs pathGraph 0) 3).distance ≤ 3 := by
  have h1 : Reaches pathGraph 0 1 1 := @Reaches.step pathGraph 0 0 0 1 Reaches.refl (by decide)
  have h2 : Reaches pathGraph 0 2 2 := @Reaches.step pathGraph 0 1 1 2 h1 (by decide)
  have h3 : Reaches pathGraph 0 3 3 := @Reaches.step pathGraph 0 2 2 3 h2 (by decide)
  obtain ⟨h0, hb, hr, hmin⟩ :=
    (bfs_correct pathGraph 0 (by decide) (wfAdj_of_bounded pathGraph (by decide))).1
      3 (by decide) ⟨3, h3⟩
  refine ⟨hb, ?_⟩
  have h1 := hmin 3 h3
  push_cast at h1
  omega

/-- C7: running `bfs` twice in succession from the same source produces the
same graph state as running it once (every node's color, distance and
predecessor agree), and likewise `prim` twice produces identical distance and
predecessor assignments — each run fully reinitializes the per-node search
state it uses before traversing, and neither run changes anything the
algorithms read. -/
theorem bfs_prim_idempotent (g : Graph) (src : Nat) :
    bfs (bfs g src) src = bfs g src ∧ prim (prim g src) src = prim g src := by
  constructor
  · obtain ⟨a1, a2, a3, a4, a5⟩ := bfs_frame g src
    exact bfs_congr g (bfs g src) src a1 a3 a4 a2 (fun i => ⟨(a5 i).1, (a5 i).2⟩)
  · obtain ⟨b1, b2, b3, b4, b5⟩ := prim_frame g src
    exact prim_congr g (prim g src) src b1 b3 b4 b2 b5

end GraphSuite

